import Mathlib

/-!
Verification development for the cleaning engine of `src/client/lib/cleaning.ts`.

Modelling conventions for the shallow embedding:
* JS numbers are modelled as exact rationals (`ℚ`).  Double rounding, overflow
  to `Infinity` and `NaN` payloads are not modelled; the number-typed claims of
  the specification are about the algorithm, whose arithmetic on the concrete
  inputs used below is exact in binary64 as well.
* A raw cell is a tagged union `Value` covering the JS values the engine
  inspects: `null`/`undefined` (merged, both loosely equal `null`), booleans,
  numbers, strings and `Date` objects (carried as their epoch-millisecond
  time value; an out-of-range time value models an invalid `Date`).
* `String(number)` and `String(Date)` formatting is abstracted by a fixed
  non-empty rendering; no claim depends on the exact digits.
* String operations (`trim`, `toLowerCase`, `replace`) are implemented over
  the character list, with the ASCII whitespace and letter ranges; this agrees
  with JS on every string appearing in the claims.
* `Date` string parsing follows the ECMAScript Date Time String Format
  (the only format the language standard specifies).  Date-time forms without
  a UTC offset designator are interpreted in the host time zone by JS and are
  modelled as unparseable; no claim depends on them.
-/

inductive Value where
  | vnull
  | vbool (b : Bool)
  | vnum (q : ℚ)
  | vstr (s : String)
  | vdate (ms : Int)
deriving DecidableEq, Repr

open Value

/-- `String(v)` for the values the engine feeds to it.  Number and Date
rendering is abstracted (always non-empty, never parses as a number). -/
def jsToString : Value → String
  | vnull => "null"
  | vbool b => if b then "true" else "false"
  | vnum q => if q.den = 1 then toString q.num else toString q.num ++ "/" ++ toString q.den
  | vstr s => s
  | vdate ms => "@Date:" ++ toString ms

/-- JS `trim`: strip leading and trailing whitespace. -/
def trimChars (cs : List Char) : List Char :=
  ((cs.dropWhile (·.isWhitespace)).reverse.dropWhile (·.isWhitespace)).reverse

def jsTrim (s : String) : String := (trimChars s.data).asString

/-- JS `toLowerCase` (ASCII range, which covers every string in the claims). -/
def lowerChar (c : Char) : Char :=
  if 'A' ≤ c ∧ c ≤ 'Z' then Char.ofNat (c.toNat + 32) else c

def jsLower (s : String) : String := (s.data.map lowerChar).asString

/-- `String(v).replace(/,/g, "")` : every comma is removed. -/
def stripCommas (s : String) : String := (s.data.filter (fun c => c ≠ ',')).asString

def digChar (c : Char) : Nat := c.toNat - 48

def natOfDigits (cs : List Char) : Nat := cs.foldl (fun a c => a * 10 + digChar c) 0

/-- Exponent part of a JS float literal after the `e`/`E`, if well formed. -/
def expAfterE (cs : List Char) : Option Int :=
  match cs with
  | '+' :: r => let ds := r.takeWhile (·.isDigit); if ds = [] then none else some (natOfDigits ds : Int)
  | '-' :: r => let ds := r.takeWhile (·.isDigit); if ds = [] then none else some (-(natOfDigits ds : Int))
  | _ => let ds := cs.takeWhile (·.isDigit); if ds = [] then none else some (natOfDigits ds : Int)

/-- `parseFloat` composed with the caller's `isFinite` check: the longest
numeric prefix as an exact rational, `none` for NaN and for `Infinity`. -/
def parseFloatQ (s : String) : Option ℚ :=
  let cs0 := s.data.dropWhile (·.isWhitespace)
  let neg := match cs0 with | '-' :: _ => true | _ => false
  let cs := match cs0 with | '-' :: r => r | '+' :: r => r | _ => cs0
  if cs.take 8 = "Infinity".data then none else
  let ip := cs.takeWhile (·.isDigit)
  let cs1 := cs.drop ip.length
  let fp := match cs1 with
    | '.' :: r => r.takeWhile (·.isDigit)
    | _ => []
  let cs2 := match cs1 with
    | '.' :: r => r.dropWhile (·.isDigit)
    | _ => cs1
  if ip = [] ∧ fp = [] then none else
  let mant : ℚ := (natOfDigits ip : ℚ) + (natOfDigits fp : ℚ) / ((10 : ℚ) ^ fp.length)
  let e : Int := match cs2 with
    | 'e' :: r => (expAfterE r).getD 0
    | 'E' :: r => (expAfterE r).getD 0
    | _ => 0
  let v := mant * (10 : ℚ) ^ e
  some (if neg then -v else v)

/-- `toNumber` from the source: finite numbers pass through, `null`/`""` are
missing, anything else goes through comma stripping and `parseFloat`. -/
def toNumber : Value → Option ℚ
  | vnum q => some q
  | vnull => none
  | vstr "" => none
  | v => parseFloatQ (stripCommas (jsToString v))

structure Quants where
  q1 : ℚ
  q2 : ℚ
  q3 : ℚ
deriving DecidableEq, Repr

/-- The inner `q` closure of `quantiles`, on an already sorted array.
`a[base] + (a[base+1] - a[base]) * rest || a[base]` : when `base + 1` is out
of range the arithmetic yields NaN (falsy), and when the interpolated value
is exactly `0` it is falsy as well; in both cases `||` yields `a[base]`. -/
def jsQ (a : List ℚ) (p : ℚ) : ℚ :=
  if a.length = 0 then 0 else
  let pos : ℚ := ((a.length : ℚ) - 1) * p
  let base : Nat := (⌊pos⌋).toNat
  let rest : ℚ := pos - ((⌊pos⌋ : ℤ) : ℚ)
  if base + 1 < a.length then
    let v := a.getD base 0 + (a.getD (base + 1) 0 - a.getD base 0) * rest
    if v = 0 then a.getD base 0 else v
  else
    a.getD base 0

/-- `[...arr].sort((x, y) => x - y)` : ascending numeric sort. -/
def sortAsc (arr : List ℚ) : List ℚ := arr.insertionSort (fun x y => x ≤ y)

/-- `quantiles` from the source. -/
def quantiles (arr : List ℚ) : Quants :=
  let a := sortAsc arr
  ⟨jsQ a (1/4), jsQ a (1/2), jsQ a (3/4)⟩

/-- `winsorize` from the source: identity below 5 samples, otherwise clip to
`[q1 - 1.5*iqr, q3 + 1.5*iqr]`. -/
def winsorize (arr : List ℚ) : List ℚ :=
  if arr.length < 5 then arr else
  let qs := quantiles arr
  let iqr := qs.q3 - qs.q1
  let lo := qs.q1 - 3/2 * iqr
  let hi := qs.q3 + 3/2 * iqr
  arr.map fun v => if v < lo then lo else if v > hi then hi else v

/-- One `map.set(v, (map.get(v) || 0) + 1)` step on the insertion-ordered
entry list of a JS `Map`: an existing key keeps its position, a new key is
appended. -/
def bump {α : Type} [DecidableEq α] (acc : List (α × Nat)) (v : α) : List (α × Nat) :=
  if acc.any (fun e => e.1 = v) then
    acc.map (fun e => if e.1 = v then (e.1, e.2 + 1) else e)
  else acc ++ [(v, 1)]

/-- The frequency table of `arr` in first-seen key order. -/
def tallyAux {α : Type} [DecidableEq α] (acc : List (α × Nat)) : List α → List (α × Nat)
  | [] => acc
  | v :: vs => tallyAux (bump acc v) vs

/-- `.sort((a, b) => b[1] - a[1])[0]` : JS sort is stable, so the head of the
count-descending sort is the first entry attaining the maximal count. -/
def firstMax {α : Type} : List (α × Nat) → Option (α × Nat)
  | [] => none
  | e :: es => some (es.foldl (fun best x => if best.2 < x.2 then x else best) e)

/-- `mode` from the source. -/
def mode {α : Type} [DecidableEq α] (arr : List α) : Option α :=
  if arr = [] then none
  else (firstMax (tallyAux [] arr)).map (·.1)

/-- `normalizeBoolean` from the source. -/
def normalizeBoolean : Value → Option Bool
  | vbool b => some b
  | vnull => none
  | vstr "" => none
  | v =>
    let s := jsLower (jsTrim (jsToString v))
    if s = "true" ∨ s = "yes" ∨ s = "y" ∨ s = "1" then some true
    else if s = "false" ∨ s = "no" ∨ s = "n" ∨ s = "0" then some false
    else none

/-! ### Dates

`normalizeDate` relies on the host `Date`: construction from a string, a
number or a `Date`, `getTime`, and `toISOString`.  These are modelled from
the ECMAScript specification: a time value is an integer count of
milliseconds since the epoch, valid when its magnitude is at most 8.64e15;
`toISOString` renders it in UTC, with a 4-digit year for years 0..9999 and
the expanded `±YYYYYY` form otherwise. -/

def maxTime : Nat := 8640000000000000

/-- Civil calendar date (year, month 1..12, day 1..31) from a day count since
1970-01-01, proleptic Gregorian (Howard Hinnant's `civil_from_days`). -/
def civilFromDays (z : Int) : Int × Nat × Nat :=
  let z' := z + 719468
  let era : Int := Int.ediv z' 146097
  let doe : Nat := (z' - era * 146097).toNat
  let yoe : Nat := (doe - doe / 1460 + doe / 36524 - doe / 146096) / 365
  let y : Int := (yoe : Int) + era * 400
  let doy : Nat := doe - (365 * yoe + yoe / 4 - yoe / 100)
  let mp : Nat := (5 * doy + 2) / 153
  let d : Nat := doy - (153 * mp + 2) / 5 + 1
  let m : Nat := if mp < 10 then mp + 3 else mp - 9
  (y + (if m ≤ 2 then 1 else 0), m, d)

/-- Day count since 1970-01-01 of a civil date (`days_from_civil`). -/
def daysFromCivil (y : Int) (m d : Nat) : Int :=
  let y' : Int := y - (if m ≤ 2 then 1 else 0)
  let era : Int := Int.ediv y' 400
  let yoe : Nat := (y' - era * 400).toNat
  let mp : Nat := if 2 < m then m - 3 else m + 9
  let doy : Nat := (153 * mp + 2) / 5 + d - 1
  let doe : Nat := yoe * 365 + yoe / 4 - yoe / 100 + doy
  era * 146097 + (doe : Int) - 719468

def dig (d : Nat) : Char := Char.ofNat (48 + d)

/-- Fixed-width zero-padded decimal renderings; `toISOString` uses exactly
these widths and every call site fits in them. -/
def pad2 (n : Nat) : List Char := [dig (n / 10 % 10), dig (n % 10)]

def pad3 (n : Nat) : List Char := [dig (n / 100 % 10), dig (n / 10 % 10), dig (n % 10)]

def pad4 (n : Nat) : List Char :=
  [dig (n / 1000 % 10), dig (n / 100 % 10), dig (n / 10 % 10), dig (n % 10)]

def pad6 (n : Nat) : List Char :=
  [dig (n / 100000 % 10), dig (n / 10000 % 10), dig (n / 1000 % 10),
   dig (n / 100 % 10), dig (n / 10 % 10), dig (n % 10)]

/-- The date part of `toISOString`: `YYYY-MM-DD`, or `±YYYYYY-MM-DD` for
years outside 0..9999 (expanded-year format). -/
def isoDatePart (y : Int) (m d : Nat) : List Char :=
  if 0 ≤ y ∧ y ≤ 9999 then pad4 y.toNat ++ '-' :: pad2 m ++ '-' :: pad2 d
  else (if y < 0 then '-' else '+') :: (pad6 y.natAbs ++ '-' :: pad2 m ++ '-' :: pad2 d)

/-- The time part of `toISOString`: `hh:mm:ss.sss` from the millisecond of
the day. -/
def isoTimePart (t : Nat) : List Char :=
  pad2 (t / 3600000) ++ ':' :: pad2 (t / 60000 % 60) ++ ':' :: pad2 (t / 1000 % 60)
    ++ '.' :: pad3 (t % 1000)

/-- The year field `toISOString` renders for a time value. -/
def isoYear (ms : Int) : Int := (civilFromDays (Int.ediv ms 86400000)).1

/-- The millisecond of the UTC day of a time value. -/
def msOfDay (ms : Int) : Nat := (Int.emod ms 86400000).toNat

/-- `d.toISOString()` as a character list. -/
def isoChars (ms : Int) : List Char :=
  let c := civilFromDays (Int.ediv ms 86400000)
  isoDatePart c.1 c.2.1 c.2.2 ++ 'T' :: (isoTimePart (msOfDay ms) ++ ['Z'])

def renderIso (ms : Int) : String := (isoChars ms).asString

/-- JS `String.prototype.slice` for the in-range, non-negative indices the
source uses. -/
def jsSlice (s : String) (a b : Nat) : String := ((s.data.drop a).take (b - a)).asString

/-- Read exactly `k` decimal digits. -/
def digitsN (k : Nat) (cs : List Char) : Option (Nat × List Char) :=
  let ds := cs.take k
  if ds.length = k ∧ ds.all (·.isDigit) then some (natOfDigits ds, cs.drop k) else none

def isLeap (y : Int) : Bool := (Int.emod y 4 = 0 ∧ Int.emod y 100 ≠ 0) ∨ Int.emod y 400 = 0

def daysInMonth (y : Int) (m : Nat) : Nat :=
  if m = 2 then (if isLeap y then 29 else 28)
  else if m = 4 ∨ m = 6 ∨ m = 9 ∨ m = 11 then 30 else 31

/-- Year of the ECMAScript Date Time String Format: `YYYY` or `±YYYYYY`
(`-000000` is not permitted). -/
def parseIsoYear (cs : List Char) : Option (Int × List Char) :=
  match cs with
  | '+' :: r => (digitsN 6 r).map (fun p => ((p.1 : Int), p.2))
  | '-' :: r =>
    match digitsN 6 r with
    | some p => if p.1 = 0 then none else some ((-(p.1 : Int)), p.2)
    | none => none
  | _ => (digitsN 4 cs).map (fun p => ((p.1 : Int), p.2))

/-- `-MM` and `-DD` pieces, each optional. -/
def parseMonthDay (cs : List Char) : Option (Nat × Nat × List Char) :=
  match cs with
  | '-' :: r =>
    match digitsN 2 r with
    | none => none
    | some (mo, r1) =>
      match r1 with
      | '-' :: r2 => (digitsN 2 r2).map (fun p => (mo, p.1, p.2))
      | _ => some (mo, 1, r1)
  | _ => some (1, 1, cs)

/-- `:ss[.sss]` piece, optional. -/
def parseSecMs (cs : List Char) : Option (Nat × Nat × List Char) :=
  match cs with
  | ':' :: r =>
    match digitsN 2 r with
    | none => none
    | some (ss, r1) =>
      match r1 with
      | '.' :: r2 => (digitsN 3 r2).map (fun p => (ss, p.1, p.2))
      | _ => some (ss, 0, r1)
  | _ => some (0, 0, cs)

/-- UTC offset designator in minutes.  A date-time without an offset is
interpreted in the host time zone by JS; that host dependence is modelled as
a parse failure (no claim depends on it). -/
def parseOffset (cs : List Char) : Option Int :=
  match cs with
  | ['Z'] => some 0
  | '+' :: r =>
    match digitsN 2 r with
    | some (oh, ':' :: r1) =>
      match digitsN 2 r1 with
      | some (om, []) => if oh ≤ 23 ∧ om ≤ 59 then some ((oh : Int) * 60 + om) else none
      | _ => none
    | _ => none
  | '-' :: r =>
    match digitsN 2 r with
    | some (oh, ':' :: r1) =>
      match digitsN 2 r1 with
      | some (om, []) => if oh ≤ 23 ∧ om ≤ 59 then some (-((oh : Int) * 60 + om)) else none
      | _ => none
    | _ => none
  | _ => none

/-- `THH:mm[:ss[.sss]]` followed by an offset, as milliseconds of day minus
the offset; `[]` means midnight UTC (a date-only form is UTC). -/
def parseTimeAndOffset (cs : List Char) : Option Int :=
  match cs with
  | [] => some 0
  | 'T' :: r =>
    match digitsN 2 r with
    | none => none
    | some (hh, r1) =>
      match r1 with
      | ':' :: r2 =>
        match digitsN 2 r2 with
        | none => none
        | some (mi, r3) =>
          match parseSecMs r3 with
          | none => none
          | some (ss, msv, r4) =>
            match parseOffset r4 with
            | none => none
            | some off =>
              if (hh ≤ 23 ∨ (hh = 24 ∧ mi = 0 ∧ ss = 0 ∧ msv = 0)) ∧ mi ≤ 59 ∧ ss ≤ 59 then
                some ((hh : Int) * 3600000 + mi * 60000 + ss * 1000 + msv - off * 60000)
              else none
      | _ => none
  | _ => none

/-- `new Date(string)` : the ECMAScript Date Time String Format, as a time
value.  Formats beyond it are implementation-defined and modelled as
unparseable. -/
def parseJsDate (s : String) : Option Int :=
  match parseIsoYear s.data with
  | none => none
  | some (y, r) =>
    match parseMonthDay r with
    | none => none
    | some (mo, d, r1) =>
      if 1 ≤ mo ∧ mo ≤ 12 ∧ 1 ≤ d ∧ d ≤ daysInMonth y mo then
        match parseTimeAndOffset r1 with
        | none => none
        | some tms =>
          let ms := daysFromCivil y mo d * 86400000 + tms
          if ms.natAbs ≤ maxTime then some ms else none
      else none

/-- Truncation toward zero, as ECMAScript `ToIntegerOrInfinity`. -/
def ratTrunc (q : ℚ) : Int := Int.tdiv q.num (q.den : Int)

/-- The time value of `v instanceof Date ? v : new Date(v)`, `none` when the
resulting `Date` is invalid (`isNaN(d.getTime())`). -/
def dateValueMs : Value → Option Int
  | vnull => none
  | vbool b => some (if b then 1 else 0)
  | vnum q =>
    if q ≤ (maxTime : ℚ) ∧ -(maxTime : ℚ) ≤ q then some (ratTrunc q) else none
  | vstr s => parseJsDate s
  | vdate ms => if ms.natAbs ≤ maxTime then some ms else none

/-- `normalizeDate` from the source: `null`/`""` and unparseable values are
missing; otherwise the ISO string, shortened to `YYYY-MM-DD` when the
`hh:mm:ss` slice of the ISO string is `00:00:00`. -/
def normalizeDate (v : Value) : Option String :=
  if v = vnull ∨ v = vstr "" then none
  else
    match dateValueMs v with
    | none => none
    | some ms =>
      let iso := renderIso ms
      some (if jsSlice iso 11 19 = "00:00:00" then jsSlice iso 0 10 else iso)

/-! ### The cleaning dispatch (`cleanData`)

The column type comes from `DatasetProfile` in `src/client/lib/dataAnalysis.ts`,
which is not part of the sources.  Modelled from the spec: §3 lists the types
numeric, boolean, datetime, categorical and text, and §4.4/§9 state that a
profile may also carry "other/unsupported" column types, which the dispatch
leaves untouched with no report entry; `other` stands for those. -/

inductive ColType where
  | numeric
  | boolean
  | datetime
  | categorical
  | text
  | other
deriving DecidableEq, Repr

structure ColumnSpec where
  name : String
  type : ColType
deriving DecidableEq, Repr

structure DatasetProfile where
  columns : List ColumnSpec
deriving DecidableEq, Repr

/-- A row: a mapping from column name to cell value.  A key that is absent in
the JS object reads as `undefined`, i.e. `vnull`. -/
def Row : Type := String → Value

/-- `rr[name] = v` on a (copied) row. -/
def setCol (r : Row) (n : String) (v : Value) : Row := fun k => if k = n then v else r k

/-- JS `Map.set`: an existing key keeps its position, a new key is appended. -/
def mapSet {β : Type} (m : List (String × β)) (k : String) (v : β) : List (String × β) :=
  if m.any (fun e => e.1 = k) then m.map (fun e => if e.1 = k then (k, v) else e)
  else m ++ [(k, v)]

/-- JS `Map.get`. -/
def mapGet {β : Type} (m : List (String × β)) (k : String) : Option β :=
  (m.find? (fun e => e.1 = k)).map (·.2)

/-- Phase 1, numeric: the non-missing coerced numbers of a column. -/
def numsOf (rows : List Row) (name : String) : List ℚ :=
  rows.filterMap (fun rr => toNumber (rr name))

/-- Phase 1, boolean: the non-missing normalized booleans of a column. -/
def boolsOf (rows : List Row) (name : String) : List Bool :=
  rows.filterMap (fun rr => normalizeBoolean (rr name))

/-- Phase 1, categorical/text: `null`/`""` is absent, anything else is
converted to text and trimmed, and empty trims are filtered out. -/
def textProbe (v : Value) : Option String :=
  if v = vnull ∨ v = vstr "" then none
  else if jsTrim (jsToString v) = "" then none else some (jsTrim (jsToString v))

def textsOf (rows : List Row) (name : String) : List String :=
  rows.filterMap (fun rr => textProbe (rr name))

structure SummaryMaps where
  medians : List (String × ℚ)
  modes : List (String × Value)
deriving Repr

/-- One column of the summarize pass (the first `for` loop of `cleanData`). -/
def summarizeStep (rows : List Row) (acc : SummaryMaps) (col : ColumnSpec) : SummaryMaps :=
  match col.type with
  | ColType.numeric =>
    let nums := numsOf rows col.name
    if nums.length ≠ 0 then
      { acc with medians := mapSet acc.medians col.name (quantiles nums).q2 }
    else acc
  | ColType.boolean =>
    match mode (boolsOf rows col.name) with
    | some m => { acc with modes := mapSet acc.modes col.name (vbool m) }
    | none => acc
  | ColType.categorical | ColType.text =>
    match mode (textsOf rows col.name) with
    | some m => { acc with modes := mapSet acc.modes col.name (vstr m) }
    | none => acc
  | _ => acc

def summarize (rows : List Row) (cols : List ColumnSpec) : SummaryMaps :=
  cols.foldl (summarizeStep rows) ⟨[], []⟩

/-- `median.toFixed(2)`.  Rendering of the rounded value; report text only. -/
def toFixed2 (q : ℚ) : String :=
  let n : Int := ⌊q * 100 + 1/2⌋
  let m := n.natAbs
  (if n < 0 then "-" else "") ++ toString (m / 100) ++ "." ++ (pad2 (m % 100)).asString

/-- The report entry pushed for a (supported) column; it depends only on the
phase-1 maps and the column. -/
def reportLine (maps : SummaryMaps) (col : ColumnSpec) : String :=
  match col.type with
  | ColType.numeric =>
    col.name ++ ": converted to number, imputed median "
      ++ toFixed2 ((mapGet maps.medians col.name).getD 0) ++ ", winsorized outliers"
  | ColType.datetime => col.name ++ ": normalized dates to ISO (YYYY-MM-DD or ISO 8601)"
  | ColType.boolean => col.name ++ ": normalized booleans and filled missing with mode"
  | ColType.categorical | ColType.text =>
    col.name ++ ": trimmed text and filled missing with '"
      ++ jsToString ((mapGet maps.modes col.name).getD (vstr "Unknown")) ++ "'"
  | ColType.other => ""

/-- Phase 2 on the column's cell values (the per-type `for` loop bodies). -/
def transformColumnValues (maps : SummaryMaps) (col : ColumnSpec) (vs : List Value) : List Value :=
  match col.type with
  | ColType.numeric =>
    let nums := vs.map toNumber
    let median := (mapGet maps.medians col.name).getD 0
    let converted := nums.map (fun v => v.getD median)
    (winsorize converted).map vnum
  | ColType.datetime =>
    vs.map (fun v => match normalizeDate v with | some s => vstr s | none => v)
  | ColType.boolean =>
    let m := mapGet maps.modes col.name
    vs.map (fun v =>
      match normalizeBoolean v with
      | some b => vbool b
      | none => m.getD (vbool false))
  | ColType.categorical | ColType.text =>
    let m := (mapGet maps.modes col.name).getD (vstr "Unknown")
    vs.map (fun v => if v = vnull ∨ v = vstr "" then m else vstr (jsTrim (jsToString v)))
  | ColType.other => vs

def writeBack (out : List Row) (name : String) (vs : List Value) : List Row :=
  List.zipWith (fun r v => setCol r name v) out vs

/-- Phase 2 for one column: write the transformed column back and emit the
report entry; an unsupported type leaves the rows untouched and reports
nothing. -/
def transformCol (maps : SummaryMaps) (out : List Row) (col : ColumnSpec) :
    List Row × Option String :=
  match col.type with
  | ColType.other => (out, none)
  | _ =>
    (writeBack out col.name (transformColumnValues maps col (out.map (fun r => r col.name))),
     some (reportLine maps col))

def runCols (maps : SummaryMaps) : List Row → List ColumnSpec → List Row × List String
  | out, [] => (out, [])
  | out, c :: cs =>
    ((runCols maps (transformCol maps out c).1 cs).1,
     (transformCol maps out c).2.toList ++ (runCols maps (transformCol maps out c).1 cs).2)

/-- `cleanData` from the source.  `out` starts as a list of copies of the
input rows (`rows.map(r => ({...r}))`); in the pure model the copy is the
value itself. -/
def cleanData (rows : List Row) (profile : DatasetProfile) : List Row × List String :=
  let maps := summarize rows profile.columns
  runCols maps rows profile.columns

/-- The values of one column across a list of rows. -/
def colValues (rows : List Row) (name : String) : List Value :=
  rows.map (fun r => r name)


/-- Winsorization bounds as computed inside `winsorize`. -/
def loOf (arr : List ℚ) : ℚ :=
  (quantiles arr).q1 - 3/2 * ((quantiles arr).q3 - (quantiles arr).q1)

def hiOf (arr : List ℚ) : ℚ :=
  (quantiles arr).q3 + 3/2 * ((quantiles arr).q3 - (quantiles arr).q1)

/-- The clipping step of `winsorize`. -/
def clip (lo hi v : ℚ) : ℚ := if v < lo then lo else if v > hi then hi else v

/-- The imputed ("converted") numeric column of phase 2: every cell coerced,
missing cells filled with the recorded median (0 when none was recorded). -/
def convertedColumn (rows : List Row) (p : DatasetProfile) (name : String) : List ℚ :=
  (colValues rows name).map
    (fun v => (toNumber v).getD ((mapGet (summarize rows p.columns).medians name).getD 0))

/-- The quantile formula exactly as claim C1 states it (R-7): on the sorted
sample, `a[base] + (a[base+1] - a[base]) * rest` at position `(count-1)p`;
when `rest = 0` the interpolation term vanishes and the value is `a[base]`. -/
def r7 (a : List ℚ) (p : ℚ) : ℚ :=
  if a.length = 0 then 0 else
  let pos : ℚ := ((a.length : ℚ) - 1) * p
  let base : Nat := (⌊pos⌋).toNat
  let rest : ℚ := pos - ((⌊pos⌋ : ℤ) : ℚ)
  if rest = 0 then a.getD base 0
  else a.getD base 0 + (a.getD (base + 1) 0 - a.getD base 0) * rest

def quantilesSpecR7 (arr : List ℚ) : Quants :=
  let a := sortAsc arr
  ⟨r7 a (1/4), r7 a (1/2), r7 a (3/4)⟩

/-- The date-only rendering `iso.slice(0, 10)` of a time value. -/
def dateOnlyOf (ms : Int) : String := jsSlice (renderIso ms) 0 10

/-- Single-column test rows for the witnesses. -/
def rowOf (v : Value) : Row := fun k => if k = "c" then v else vnull

def mkRows (vs : List Value) : List Row := vs.map rowOf

def colNum : ColumnSpec := ⟨"c", ColType.numeric⟩

def colBool : ColumnSpec := ⟨"c", ColType.boolean⟩

def colText : ColumnSpec := ⟨"c", ColType.text⟩

def colDate : ColumnSpec := ⟨"c", ColType.datetime⟩

def colOther : ColumnSpec := ⟨"c", ColType.other⟩

def pNum : DatasetProfile := ⟨[colNum]⟩

def pBool : DatasetProfile := ⟨[colBool]⟩

def pText : DatasetProfile := ⟨[colText]⟩

def pDate : DatasetProfile := ⟨[colDate]⟩

def pOther : DatasetProfile := ⟨[colOther]⟩

/-- Two-column test rows: a profiled column "c" and an unprofiled "u". -/
def rowOf2 (v u : Value) : Row :=
  fun k => if k = "c" then v else if k = "u" then u else vnull

theorem intToNat0 : Int.toNat 0 = 0 := rfl

theorem intToNat1 : Int.toNat 1 = 1 := rfl

theorem intToNat2 : Int.toNat 2 = 2 := rfl

theorem intToNat3 : Int.toNat 3 = 3 := rfl

theorem intToNat4 : Int.toNat 4 = 4 := rfl

theorem intToNat5 : Int.toNat 5 = 5 := rfl

theorem intToNat6 : Int.toNat 6 = 6 := rfl

theorem intToNat7 : Int.toNat 7 = 7 := rfl

theorem intToNat8 : Int.toNat 8 = 8 := rfl

theorem intToNat9 : Int.toNat 9 = 9 := rfl

example : quantiles [1, 2, 3, 4, 100] = ⟨2, 3, 4⟩ := by
  norm_num [quantiles, sortAsc, jsQ, List.insertionSort, List.orderedInsert, intToNat1,
    intToNat2, intToNat3]
example : winsorize [1, 2, 3, 4, 100] = [1, 2, 3, 4, 7] := by
  norm_num [winsorize, quantiles, sortAsc, jsQ, List.insertionSort, List.orderedInsert,
    intToNat1, intToNat2, intToNat3]
example : quantiles [-1, 1] = ⟨-1/2, -1, 1/2⟩ := by
  norm_num [quantiles, sortAsc, jsQ, List.insertionSort, List.orderedInsert, intToNat0]
example : renderIso 0 = "1970-01-01T00:00:00.000Z" := by decide
example : normalizeDate (vstr "2023-01-01T00:00:00.000Z") = some "2023-01-01" := by decide
example : normalizeDate (vstr "not-a-date") = none := by decide
example : normalizeDate (vstr "2023-01-01") = some "2023-01-01" := by decide
example : normalizeDate (vstr "2023-06-15T10:30:00.000Z") = some "2023-06-15T10:30:00.000Z" := by
  decide
example : normalizeDate vnull = none := by decide
example : normalizeDate (vnum 500) = some "1970-01-01" := by decide
example : renderIso 253402300800000 = "+010000-01-01T00:00:00.000Z" := by decide
example : normalizeDate (vdate 253402300800000) = some "+010000-01-01T00:00:00.000Z" := by decide
example : normalizeDate (vdate (-62198755200000)) = some "-000001-01-01T00:00:00.000Z" := by decide

example : mode ["Alice", "alice"] = some "Alice" := by decide
example : mode ([] : List String) = none := by decide
example : mode [3, 1, 3, 1, 2] = some 3 := by decide
example : toNumber (vstr "abc") = none := by decide
example : normalizeBoolean (vstr " YES ") = some true := by decide
example : normalizeBoolean (vstr "whatever") = none := by decide


/-! ### Structural lemmas about the dispatch -/

theorem winsorize_length (l : List ℚ) : (winsorize l).length = l.length := by
  unfold winsorize
  split
  · rfl
  · simp

theorem transformColumnValues_length (m : SummaryMaps) (col : ColumnSpec) (vs : List Value) :
    (transformColumnValues m col vs).length = vs.length := by
  unfold transformColumnValues
  cases col.type <;> simp [winsorize_length]

theorem setCol_same (r : Row) (n : String) (v : Value) : setCol r n v n = v := by
  simp [setCol]

theorem setCol_ne (r : Row) (n : String) (v : Value) (k : String) (h : k ≠ n) :
    setCol r n v k = r k := by
  simp [setCol, h]

theorem zipWith_proj_right {α β : Type} :
    ∀ (out : List α) (vs : List β), vs.length = out.length →
      List.zipWith (fun _ v => v) out vs = vs
  | [], [], _ => rfl
  | [], _ :: _, h => by simp at h
  | _ :: _, [], h => by simp at h
  | _ :: out, v :: vs, h => by
    simp only [List.zipWith_cons_cons, List.cons.injEq, true_and]
    exact zipWith_proj_right out vs (by simpa using h)

theorem zipWith_proj_left {α β γ : Type} (g : α → γ) :
    ∀ (out : List α) (vs : List β), vs.length = out.length →
      List.zipWith (fun r _ => g r) out vs = out.map g
  | [], [], _ => rfl
  | [], _ :: _, h => by simp at h
  | _ :: _, [], h => by simp at h
  | _ :: out, v :: vs, h => by
    simp only [List.zipWith_cons_cons, List.map_cons, List.cons.injEq, true_and]
    exact zipWith_proj_left g out vs (by simpa using h)

theorem colValues_length (rows : List Row) (n : String) :
    (colValues rows n).length = rows.length := by
  simp [colValues]

theorem colValues_writeBack (out : List Row) (n : String) (vs : List Value)
    (h : vs.length = out.length) : colValues (writeBack out n vs) n = vs := by
  unfold colValues writeBack
  rw [List.map_zipWith]
  simp only [setCol_same]
  exact zipWith_proj_right out vs h

theorem colValues_writeBack_ne (out : List Row) (n : String) (vs : List Value) (k : String)
    (h : vs.length = out.length) (hk : k ≠ n) :
    colValues (writeBack out n vs) k = colValues out k := by
  unfold colValues writeBack
  rw [List.map_zipWith]
  simp only [setCol_ne _ _ _ _ hk]
  exact zipWith_proj_left (fun r => r k) out vs h

theorem writeBack_length (out : List Row) (n : String) (vs : List Value)
    (h : vs.length = out.length) : (writeBack out n vs).length = out.length := by
  simp [writeBack, h]

theorem transformCol_length (m : SummaryMaps) (out : List Row) (col : ColumnSpec) :
    (transformCol m out col).1.length = out.length := by
  cases hty : col.type <;>
    simp only [transformCol, hty] <;>
    simp [writeBack, transformColumnValues_length]

theorem transformCol_vals_length (m : SummaryMaps) (out : List Row) (col : ColumnSpec) :
    (transformColumnValues m col (colValues out col.name)).length = out.length := by
  rw [transformColumnValues_length, colValues_length]

theorem colValues_transformCol_ne (m : SummaryMaps) (out : List Row) (col : ColumnSpec)
    (k : String) (hk : k ≠ col.name) :
    colValues (transformCol m out col).1 k = colValues out k := by
  have hlen := transformCol_vals_length m out col
  cases hty : col.type <;>
    simp only [transformCol, hty] <;>
    first
      | rfl
      | exact colValues_writeBack_ne _ _ _ _ hlen hk

theorem colValues_transformCol_self (m : SummaryMaps) (out : List Row) (col : ColumnSpec) :
    colValues (transformCol m out col).1 col.name
      = transformColumnValues m col (colValues out col.name) := by
  have hlen := transformCol_vals_length m out col
  cases hty : col.type
  case other => simp only [transformCol, transformColumnValues, hty]
  all_goals
    simp only [transformCol, hty]
    exact colValues_writeBack _ _ _ hlen

theorem transformCol_snd (m : SummaryMaps) (out : List Row) (col : ColumnSpec) :
    (transformCol m out col).2
      = if col.type = ColType.other then none else some (reportLine m col) := by
  cases hty : col.type <;> simp only [transformCol, hty] <;> rfl

theorem runCols_length (m : SummaryMaps) :
    ∀ (out : List Row) (cs : List ColumnSpec), (runCols m out cs).1.length = out.length
  | _, [] => rfl
  | out, c :: cs => by
    unfold runCols
    rw [runCols_length m _ cs, transformCol_length]

theorem runCols_colValues_ne (m : SummaryMaps) (k : String) :
    ∀ (out : List Row) (cs : List ColumnSpec), k ∉ cs.map (fun c => c.name) →
      colValues (runCols m out cs).1 k = colValues out k
  | _, [], _ => rfl
  | out, c :: cs, h => by
    unfold runCols
    have h1 : k ≠ c.name := by simp at h; exact h.1
    have h2 : k ∉ cs.map (fun c => c.name) := by simp at h; simpa using h.2
    rw [runCols_colValues_ne m k _ cs h2, colValues_transformCol_ne m out c k h1]

theorem runCols_snd (m : SummaryMaps) :
    ∀ (out : List Row) (cs : List ColumnSpec),
      (runCols m out cs).2
        = (cs.filter (fun c => c.type ≠ ColType.other)).map (reportLine m)
  | _, [] => rfl
  | out, c :: cs => by
    unfold runCols
    rw [transformCol_snd]
    by_cases hc : c.type = ColType.other
    · simp only [hc, if_pos rfl, Option.toList_none, List.nil_append]
      rw [runCols_snd m _ cs]
      simp [List.filter_cons, hc]
    · simp only [if_neg hc, Option.toList_some]
      rw [runCols_snd m _ cs]
      simp [List.filter_cons, hc]

theorem runCols_colValues_mem (m : SummaryMaps) :
    ∀ (out : List Row) (cs : List ColumnSpec) (col : ColumnSpec), col ∈ cs →
      (cs.map (fun c => c.name)).Nodup →
      colValues (runCols m out cs).1 col.name
        = transformColumnValues m col (colValues out col.name)
  | _, [], col, h, _ => absurd h (List.not_mem_nil col)
  | out, c :: cs, col, h, hnd => by
    unfold runCols
    have hmap : (c.name :: cs.map (fun c => c.name)).Nodup := by simpa using hnd
    have hnd1 : c.name ∉ cs.map (fun c => c.name) := (List.nodup_cons.mp hmap).1
    have hnd2 : (cs.map (fun c => c.name)).Nodup := (List.nodup_cons.mp hmap).2
    rcases List.mem_cons.mp h with hcol | hcol
    · subst hcol
      rw [runCols_colValues_ne m col.name _ cs hnd1, colValues_transformCol_self]
    · have hne : col.name ≠ c.name := by
        intro he
        exact hnd1 (he ▸ List.mem_map_of_mem (fun c => c.name) hcol)
      rw [runCols_colValues_mem m _ cs col hcol hnd2, colValues_transformCol_ne m out c _ hne]

/-- Cells of columns the profile does not name pass through unchanged. -/
theorem cleanData_colValues_ne (rows : List Row) (p : DatasetProfile) (k : String)
    (h : k ∉ p.columns.map (fun c => c.name)) :
    colValues (cleanData rows p).1 k = colValues rows k :=
  runCols_colValues_ne _ k rows p.columns h

/-- The cleaned values of a profiled column, via the phase-2 column transform
on the raw column values. -/
theorem cleanData_colValues (rows : List Row) (p : DatasetProfile) (col : ColumnSpec)
    (hmem : col ∈ p.columns) (hnd : (p.columns.map (fun c => c.name)).Nodup) :
    colValues (cleanData rows p).1 col.name
      = transformColumnValues (summarize rows p.columns) col (colValues rows col.name) :=
  runCols_colValues_mem _ rows p.columns col hmem hnd

theorem cleanData_length (rows : List Row) (p : DatasetProfile) :
    (cleanData rows p).1.length = rows.length :=
  runCols_length _ rows p.columns

theorem cleanData_report (rows : List Row) (p : DatasetProfile) :
    (cleanData rows p).2
      = (p.columns.filter (fun c => c.type ≠ ColType.other)).map
          (reportLine (summarize rows p.columns)) :=
  runCols_snd _ rows p.columns

/-! ### Lookups into the phase-1 maps -/

theorem mapGet_nil {β : Type} (k : String) : mapGet ([] : List (String × β)) k = none := rfl

theorem mapGet_mapSet_self {β : Type} (m : List (String × β)) (k : String) (v : β) :
    mapGet (mapSet m k v) k = some v := by
  induction m with
  | nil => simp [mapSet, mapGet]
  | cons e m ih =>
    by_cases he : e.1 = k
    · simp [mapSet, mapGet, he]
    · by_cases hm : m.any (fun e => e.1 = k) <;>
        simp_all [mapSet, mapGet, he, hm]

theorem mapGet_cons {β : Type} (e : String × β) (m : List (String × β)) (k : String) :
    mapGet (e :: m) k = if e.1 = k then some e.2 else mapGet m k := by
  by_cases he : e.1 = k <;> simp [mapGet, List.find?_cons, he]

theorem mapGet_mapSet_ne {β : Type} (m : List (String × β)) (k k' : String) (v : β)
    (h : k' ≠ k) : mapGet (mapSet m k v) k' = mapGet m k' := by
  have key : ∀ (l : List (String × β)),
      mapGet (l.map (fun e => if e.1 = k then (k, v) else e)) k' = mapGet l k' := by
    intro l
    induction l with
    | nil => rfl
    | cons e l ih =>
      by_cases he : e.1 = k
      · simp [List.map_cons, mapGet_cons, he, Ne.symm h, ih]
      · by_cases he' : e.1 = k' <;> simp [List.map_cons, mapGet_cons, he, he', h, ih]
  have key2 : ∀ (l : List (String × β)), mapGet (l ++ [(k, v)]) k' = mapGet l k' := by
    intro l
    induction l with
    | nil => simp [mapGet_cons, Ne.symm h, mapGet]
    | cons e l ih =>
      rw [List.cons_append, mapGet_cons, mapGet_cons, ih]
  unfold mapSet
  split
  · exact key m
  · exact key2 m

theorem summarizeStep_medians_ne (rows : List Row) (acc : SummaryMaps) (c : ColumnSpec)
    (k : String) (h : k ≠ c.name) :
    mapGet (summarizeStep rows acc c).medians k = mapGet acc.medians k := by
  cases hty : c.type <;> simp only [summarizeStep, hty]
  · split <;> simp [mapGet_mapSet_ne _ _ _ _ h]
  all_goals
    first
      | rfl
      | cases hmo : mode (boolsOf rows c.name) <;> simp [mapGet_mapSet_ne _ _ _ _ h]
      | cases hmo : mode (textsOf rows c.name) <;> simp [mapGet_mapSet_ne _ _ _ _ h]

theorem summarizeStep_modes_ne (rows : List Row) (acc : SummaryMaps) (c : ColumnSpec)
    (k : String) (h : k ≠ c.name) :
    mapGet (summarizeStep rows acc c).modes k = mapGet acc.modes k := by
  cases hty : c.type <;> simp only [summarizeStep, hty]
  · split <;> simp
  all_goals
    first
      | rfl
      | cases hmo : mode (boolsOf rows c.name) <;> simp [mapGet_mapSet_ne _ _ _ _ h]
      | cases hmo : mode (textsOf rows c.name) <;> simp [mapGet_mapSet_ne _ _ _ _ h]

theorem summarizeFold_medians_ne (rows : List Row) (k : String) :
    ∀ (cs : List ColumnSpec) (acc : SummaryMaps), k ∉ cs.map (fun c => c.name) →
      mapGet (cs.foldl (summarizeStep rows) acc).medians k = mapGet acc.medians k
  | [], _, _ => rfl
  | c :: cs, acc, h => by
    have h1 : k ≠ c.name := by simp at h; exact h.1
    have h2 : k ∉ cs.map (fun c => c.name) := by simp at h; simpa using h.2
    rw [List.foldl_cons, summarizeFold_medians_ne rows k cs _ h2,
      summarizeStep_medians_ne rows acc c k h1]

theorem summarizeFold_modes_ne (rows : List Row) (k : String) :
    ∀ (cs : List ColumnSpec) (acc : SummaryMaps), k ∉ cs.map (fun c => c.name) →
      mapGet (cs.foldl (summarizeStep rows) acc).modes k = mapGet acc.modes k
  | [], _, _ => rfl
  | c :: cs, acc, h => by
    have h1 : k ≠ c.name := by simp at h; exact h.1
    have h2 : k ∉ cs.map (fun c => c.name) := by simp at h; simpa using h.2
    rw [List.foldl_cons, summarizeFold_modes_ne rows k cs _ h2,
      summarizeStep_modes_ne rows acc c k h1]

theorem summarizeFold_medians_lookup (rows : List Row) (col : ColumnSpec) :
    ∀ (cs : List ColumnSpec) (acc : SummaryMaps), col ∈ cs →
      (cs.map (fun c => c.name)).Nodup → mapGet acc.medians col.name = none →
      mapGet (cs.foldl (summarizeStep rows) acc).medians col.name
        = if col.type = ColType.numeric ∧ (numsOf rows col.name).length ≠ 0
          then some (quantiles (numsOf rows col.name)).q2 else none
  | [], _, hmem, _, _ => absurd hmem (List.not_mem_nil col)
  | c :: cs, acc, hmem, hnd, hacc => by
    have hmap : (c.name :: cs.map (fun c => c.name)).Nodup := by simpa using hnd
    have hnd1 : c.name ∉ cs.map (fun c => c.name) := (List.nodup_cons.mp hmap).1
    have hnd2 : (cs.map (fun c => c.name)).Nodup := (List.nodup_cons.mp hmap).2
    rw [List.foldl_cons]
    rcases List.mem_cons.mp hmem with hcol | hcol
    · subst hcol
      rw [summarizeFold_medians_ne rows col.name cs _ hnd1]
      cases hty : col.type <;> simp only [summarizeStep, hty]
      case numeric =>
        split
        · next hlen => simp [mapGet_mapSet_self, hlen]
        · next hlen => simp only [hacc]; simp at hlen; simp [hlen]
      all_goals
        first
          | simpa using hacc
          | cases hmo : mode (boolsOf rows col.name) <;> simp <;> simpa using hacc
          | cases hmo : mode (textsOf rows col.name) <;> simp <;> simpa using hacc
    · have hne : col.name ≠ c.name := by
        intro he
        exact hnd1 (he ▸ List.mem_map_of_mem (fun c => c.name) hcol)
      exact summarizeFold_medians_lookup rows col cs _ hcol hnd2
        (by rw [summarizeStep_medians_ne rows acc c col.name hne]; exact hacc)

theorem summarizeFold_modes_lookup (rows : List Row) (col : ColumnSpec) :
    ∀ (cs : List ColumnSpec) (acc : SummaryMaps), col ∈ cs →
      (cs.map (fun c => c.name)).Nodup → mapGet acc.modes col.name = none →
      mapGet (cs.foldl (summarizeStep rows) acc).modes col.name
        = match col.type with
          | ColType.boolean => (mode (boolsOf rows col.name)).map vbool
          | ColType.categorical | ColType.text => (mode (textsOf rows col.name)).map vstr
          | _ => none
  | [], _, hmem, _, _ => absurd hmem (List.not_mem_nil col)
  | c :: cs, acc, hmem, hnd, hacc => by
    have hmap : (c.name :: cs.map (fun c => c.name)).Nodup := by simpa using hnd
    have hnd1 : c.name ∉ cs.map (fun c => c.name) := (List.nodup_cons.mp hmap).1
    have hnd2 : (cs.map (fun c => c.name)).Nodup := (List.nodup_cons.mp hmap).2
    rw [List.foldl_cons]
    rcases List.mem_cons.mp hmem with hcol | hcol
    · subst hcol
      rw [summarizeFold_modes_ne rows col.name cs _ hnd1]
      cases hty : col.type <;> simp only [summarizeStep, hty]
      case numeric => split <;> simpa using hacc
      case boolean =>
        cases hmo : mode (boolsOf rows col.name) <;> simp [mapGet_mapSet_self] <;>
          simpa using hacc
      case categorical =>
        cases hmo : mode (textsOf rows col.name) <;> simp [mapGet_mapSet_self] <;>
          simpa using hacc
      case text =>
        cases hmo : mode (textsOf rows col.name) <;> simp [mapGet_mapSet_self] <;>
          simpa using hacc
      all_goals simpa using hacc
    · have hne : col.name ≠ c.name := by
        intro he
        exact hnd1 (he ▸ List.mem_map_of_mem (fun c => c.name) hcol)
      exact summarizeFold_modes_lookup rows col cs _ hcol hnd2
        (by rw [summarizeStep_modes_ne rows acc c col.name hne]; exact hacc)

/-- The median recorded for a (uniquely named) numeric column. -/
theorem summarize_medians_lookup (rows : List Row) (cs : List ColumnSpec) (col : ColumnSpec)
    (hmem : col ∈ cs) (hnd : (cs.map (fun c => c.name)).Nodup) :
    mapGet (summarize rows cs).medians col.name
      = if col.type = ColType.numeric ∧ (numsOf rows col.name).length ≠ 0
        then some (quantiles (numsOf rows col.name)).q2 else none :=
  summarizeFold_medians_lookup rows col cs ⟨[], []⟩ hmem hnd rfl

/-- The mode recorded for a (uniquely named) boolean or categorical/text
column. -/
theorem summarize_modes_lookup (rows : List Row) (cs : List ColumnSpec) (col : ColumnSpec)
    (hmem : col ∈ cs) (hnd : (cs.map (fun c => c.name)).Nodup) :
    mapGet (summarize rows cs).modes col.name
      = match col.type with
        | ColType.boolean => (mode (boolsOf rows col.name)).map vbool
        | ColType.categorical | ColType.text => (mode (textsOf rows col.name)).map vstr
        | _ => none :=
  summarizeFold_modes_lookup rows col cs ⟨[], []⟩ hmem hnd rfl

/-! ### The mode of a sample: counts, completeness and first-seen order -/

section ModeL
variable {α : Type} [DecidableEq α]

theorem tallyAux_append (l₁ l₂ : List α) :
    ∀ acc : List (α × Nat), tallyAux acc (l₁ ++ l₂) = tallyAux (tallyAux acc l₁) l₂ := by
  induction l₁ with
  | nil => intro acc; rfl
  | cons v vs ih => intro acc; simp only [List.cons_append, tallyAux]; exact ih _

theorem tally_complete (pre : List α) :
    ∀ w ∈ pre, ∃ n, (w, n) ∈ tallyAux [] pre := by
  induction pre using List.reverseRecOn with
  | nil => simp
  | append_singleton pre v ih =>
    intro w hw
    rw [tallyAux_append pre [v]]
    show ∃ n, (w, n) ∈ bump (tallyAux [] pre) v
    unfold bump
    rcases List.mem_append.mp hw with hw | hw
    · obtain ⟨n, hn⟩ := ih w hw
      split
      · exact ⟨if w = v then n + 1 else n, by
          rcases e : decide (w = v) with _ | _
          · simp at e
            refine List.mem_map.mpr ⟨(w, n), hn, ?_⟩
            simp [e]
          · simp at e
            refine List.mem_map.mpr ⟨(w, n), hn, ?_⟩
            simp [e]⟩
      · exact ⟨n, List.mem_append_left _ hn⟩
    · simp at hw
      subst hw
      split
      · next h =>
        obtain ⟨e, he, hev⟩ := List.any_eq_true.mp h
        simp at hev
        exact ⟨e.2 + 1, List.mem_map.mpr ⟨e, he, by simp [hev]⟩⟩
      · exact ⟨1, List.mem_append_right _ (by simp)⟩

theorem tally_counts (pre : List α) :
    ∀ k n, (k, n) ∈ tallyAux [] pre → k ∈ pre ∧ n = pre.count k := by
  induction pre using List.reverseRecOn with
  | nil => simp [tallyAux]
  | append_singleton pre v ih =>
    intro k n hkn
    rw [tallyAux_append pre [v]] at hkn
    replace hkn : (k, n) ∈ bump (tallyAux [] pre) v := hkn
    unfold bump at hkn
    split at hkn
    · next hany =>
      obtain ⟨e, he, heq⟩ := List.mem_map.mp hkn
      by_cases hev : e.1 = v
      · rw [if_pos hev] at heq
        obtain ⟨hk, hn⟩ : e.1 = k ∧ e.2 + 1 = n := by
          constructor <;> [exact congrArg Prod.fst heq; exact congrArg Prod.snd heq]
        obtain ⟨hmem, hcnt⟩ := ih e.1 e.2 (by simpa using he)
        subst hk
        constructor
        · exact List.mem_append_left _ hmem
        · rw [← hn, hcnt, List.count_append]
          simp [hev]
      · rw [if_neg hev] at heq
        subst heq
        obtain ⟨hmem, hcnt⟩ := ih k n he
        have hkv : k ≠ v := fun h => hev h
        constructor
        · exact List.mem_append_left _ hmem
        · rw [hcnt, List.count_append]
          simp [hkv]
    · next hany =>
      rcases List.mem_append.mp hkn with hold | hnew
      · obtain ⟨hmem, hcnt⟩ := ih k n hold
        have hkv : k ≠ v := by
          intro h
          subst h
          exact hany (List.any_eq_true.mpr ⟨(k, n), hold, by simp⟩)
        constructor
        · exact List.mem_append_left _ hmem
        · rw [hcnt, List.count_append]
          simp [hkv]
      · simp at hnew
        obtain ⟨hk, hn⟩ := hnew
        subst hk; subst hn
        have hvpre : k ∉ pre := by
          intro hc
          obtain ⟨n', hn'⟩ := tally_complete pre k hc
          exact hany (List.any_eq_true.mpr ⟨(k, n'), hn', by simp⟩)
        constructor
        · exact List.mem_append_right _ (by simp)
        · rw [List.count_append]
          simp [List.count_eq_zero_of_not_mem hvpre]

end ModeL

section ModeL2
variable {α : Type} [DecidableEq α]

theorem tally_key_mem_pre {pre : List α} {k : α} (h : k ∈ (tallyAux [] pre).map Prod.fst) :
    k ∈ pre := by
  obtain ⟨e, he, hk⟩ := List.mem_map.mp h
  exact hk ▸ (tally_counts pre e.1 e.2 (by simpa using he)).1

theorem tally_keys_order (pre : List α) :
    ((tallyAux [] pre).map Prod.fst).Pairwise
      (fun k k' => pre.indexOf k < pre.indexOf k') := by
  induction pre using List.reverseRecOn with
  | nil => simp [tallyAux]
  | append_singleton pre v ih =>
    rw [tallyAux_append pre [v]]
    show ((bump (tallyAux [] pre) v).map Prod.fst).Pairwise _
    unfold bump
    split
    · next hany =>
      have hkeys : ((tallyAux [] pre).map
            (fun e => if e.1 = v then (e.1, e.2 + 1) else e)).map Prod.fst
          = (tallyAux [] pre).map Prod.fst := by
        rw [List.map_map]
        apply List.map_congr_left
        intro e _
        by_cases hev : e.1 = v <;> simp [hev]
      rw [hkeys]
      refine ih.imp_of_mem ?_
      intro a b ha hb hab
      rw [List.indexOf_append_of_mem (tally_key_mem_pre ha),
        List.indexOf_append_of_mem (tally_key_mem_pre hb)]
      exact hab
    · next hany =>
      rw [List.map_append]
      refine List.pairwise_append.mpr ⟨?_, by simp, ?_⟩
      · refine ih.imp_of_mem ?_
        intro a b ha hb hab
        rw [List.indexOf_append_of_mem (tally_key_mem_pre ha),
          List.indexOf_append_of_mem (tally_key_mem_pre hb)]
        exact hab
      · intro a ha b hb
        simp at hb
        subst hb
        have hvnot : b ∉ pre := by
          intro hc
          obtain ⟨n', hn'⟩ := tally_complete pre b hc
          exact hany (List.any_eq_true.mpr ⟨(b, n'), hn', by simp⟩)
        have hapre : a ∈ pre := tally_key_mem_pre ha
        rw [List.indexOf_append_of_mem hapre, List.indexOf_append_of_not_mem hvnot,
          List.indexOf_cons_self]
        exact Nat.lt_of_lt_of_le (List.indexOf_lt_length.mpr hapre) (Nat.le_add_right _ _)

theorem foldl_pick_ub (xs : List (α × Nat)) :
    ∀ init : α × Nat,
      init.2 ≤ (xs.foldl (fun best x => if best.2 < x.2 then x else best) init).2
        ∧ ∀ x ∈ xs, x.2 ≤ (xs.foldl (fun best x => if best.2 < x.2 then x else best) init).2 := by
  induction xs with
  | nil => intro init; exact ⟨Nat.le_refl _, by simp⟩
  | cons x rest ih =>
    intro init
    rw [List.foldl_cons]
    obtain ⟨h1, h2⟩ := ih (if init.2 < x.2 then x else init)
    constructor
    · refine Nat.le_trans ?_ h1
      split
      · next h => exact Nat.le_of_lt h
      · exact Nat.le_refl _
    · intro y hy
      rcases List.mem_cons.mp hy with hy | hy
      · subst hy
        refine Nat.le_trans ?_ h1
        split
        · exact Nat.le_refl _
        · next h => exact Nat.le_of_not_lt h
      · exact h2 y hy

theorem foldl_pick_split :
    ∀ (xs : List (α × Nat)) (b : α × Nat),
      ∃ as bs, b :: xs
          = as ++ (xs.foldl (fun best x => if best.2 < x.2 then x else best) b) :: bs
        ∧ ∀ x ∈ as, x.2 < (xs.foldl (fun best x => if best.2 < x.2 then x else best) b).2 := by
  intro xs
  induction xs with
  | nil => intro b; exact ⟨[], [], rfl, by simp⟩
  | cons x rest ih =>
    intro b
    rw [List.foldl_cons]
    by_cases hlt : b.2 < x.2
    · rw [if_pos hlt]
      obtain ⟨as, bs, heq, hlts⟩ := ih x
      refine ⟨b :: as, bs, by rw [List.cons_append, ← heq], ?_⟩
      intro y hy
      rcases List.mem_cons.mp hy with hy | hy
      · subst hy
        exact Nat.lt_of_lt_of_le hlt (foldl_pick_ub rest x).1
      · exact hlts y hy
    · rw [if_neg hlt]
      obtain ⟨as, bs, heq, hlts⟩ := ih b
      cases as with
      | nil =>
        simp only [List.nil_append] at heq
        injection heq with h1 h2
        refine ⟨[], x :: rest, ?_, by simp⟩
        rw [List.nil_append, ← h1]
      | cons a as' =>
        rw [List.cons_append] at heq
        injection heq with h1 h2
        refine ⟨b :: x :: as', bs, ?_, ?_⟩
        · rw [List.cons_append, List.cons_append, ← h2]
        · intro y hy
          have hbf : b.2 < (rest.foldl (fun best x => if best.2 < x.2 then x else best) b).2 := by
            have := hlts a (by simp)
            rw [← h1] at this
            exact this
          rcases List.mem_cons.mp hy with hy | hy
          · subst hy; exact hbf
          · rcases List.mem_cons.mp hy with hy | hy
            · subst hy
              exact Nat.lt_of_le_of_lt (Nat.le_of_not_lt hlt) hbf
            · exact hlts y (by simp [hy])

end ModeL2


section ModeL3
variable {α : Type} [DecidableEq α]

theorem tally_ne_nil {arr : List α} (h : arr ≠ []) : tallyAux [] arr ≠ [] := by
  cases arr with
  | nil => exact absurd rfl h
  | cons a rest =>
    obtain ⟨n, hn⟩ := tally_complete (a :: rest) a (by simp)
    intro hc
    rw [hc] at hn
    exact List.not_mem_nil _ hn

theorem mode_eq_none_iff (arr : List α) : mode arr = none ↔ arr = [] := by
  constructor
  · intro h
    by_contra hne
    have ht := tally_ne_nil hne
    unfold mode at h
    rw [if_neg hne] at h
    cases htt : tallyAux [] arr with
    | nil => exact ht htt
    | cons e es => rw [htt] at h; simp [firstMax] at h
  · intro h; subst h; rfl

theorem mode_some_spec (arr : List α) (v : α) (h : mode arr = some v) :
    v ∈ arr ∧ (∀ w ∈ arr, arr.count w ≤ arr.count v)
      ∧ ∀ w ∈ arr, arr.count w = arr.count v → arr.indexOf v ≤ arr.indexOf w := by
  have hne : arr ≠ [] := by
    intro hc; subst hc; simp [mode] at h
  unfold mode at h
  rw [if_neg hne] at h
  cases htt : tallyAux [] arr with
  | nil => exact absurd htt (tally_ne_nil hne)
  | cons e es =>
    rw [htt] at h
    simp only [firstMax, Option.map_some'] at h
    obtain ⟨as, bs, hsplit, haslt⟩ := foldl_pick_split es e
    set r := es.foldl (fun best x => if best.2 < x.2 then x else best) e with hr
    have hv : r.1 = v := Option.some.inj h
    have hTsplit : tallyAux [] arr = as ++ r :: bs := by rw [htt, hsplit]
    have hrT : r ∈ tallyAux [] arr := by
      rw [hTsplit]
      exact List.mem_append_right _ (List.mem_cons_self _ _)
    have hrc := tally_counts arr r.1 r.2 (by rwa [Prod.mk.eta])
    have hub := foldl_pick_ub es e
    have hmax : ∀ x ∈ tallyAux [] arr, x.2 ≤ r.2 := by
      rw [htt]
      intro x hx
      rcases List.mem_cons.mp hx with hx | hx
      · subst hx; exact hub.1
      · exact hub.2 x hx
    have hcv : arr.count v = r.2 := by rw [← hv, hrc.2]
    refine ⟨hv ▸ hrc.1, ?_, ?_⟩
    · intro w hw
      obtain ⟨nw, hnw⟩ := tally_complete arr w hw
      have hcw := tally_counts arr w nw hnw
      rw [← hcw.2, hcv] at *
      exact hmax (w, nw) hnw
    · intro w hw hcnt
      by_cases hwv : w = v
      · subst hwv; exact Nat.le_refl _
      · obtain ⟨nw, hnw⟩ := tally_complete arr w hw
        have hcw := tally_counts arr w nw hnw
        have hnwr : nw = r.2 := by rw [hcw.2, hcnt, hcv]
        have hmem : (w, nw) ∈ as ++ r :: bs := by rw [← hTsplit]; exact hnw
        rcases List.mem_append.mp hmem with hmas | hmrb
        · exact absurd (haslt (w, nw) hmas) (by simp [hnwr])
        · rcases List.mem_cons.mp hmrb with heq | hbs
          · exact absurd (by rw [← hv]; exact congrArg Prod.fst heq) hwv
          · have hpair := tally_keys_order arr
            rw [hTsplit, List.map_append, List.map_cons] at hpair
            have h2 := (List.pairwise_append.mp hpair).2.1
            have h3 := List.rel_of_pairwise_cons h2
              (show w ∈ bs.map Prod.fst from List.mem_map.mpr ⟨(w, nw), hbs, rfl⟩)
            rw [hv] at h3
            exact Nat.le_of_lt h3

theorem mode_mem {arr : List α} {v : α} (h : mode arr = some v) : v ∈ arr :=
  (mode_some_spec arr v h).1

end ModeL3

/-! ### Quantile and winsorization bounds -/

theorem sorted_getD_mono {a : List ℚ} (h : a.Sorted (fun x y => x ≤ y)) {i j : Nat}
    (hij : i ≤ j) (hj : j < a.length) : a.getD i 0 ≤ a.getD j 0 := by
  have hi : i < a.length := Nat.lt_of_le_of_lt hij hj
  rw [List.getD_eq_getElem?_getD, List.getD_eq_getElem?_getD,
    List.getElem?_eq_getElem hi, List.getElem?_eq_getElem hj]
  exact h.rel_get_of_le (show (⟨i, hi⟩ : Fin a.length) ≤ ⟨j, hj⟩ from hij)

theorem fract_nonneg' (x : ℚ) : 0 ≤ x - ((⌊x⌋ : ℤ) : ℚ) := by
  have := Int.floor_le x
  linarith

theorem fract_lt_one' (x : ℚ) : x - ((⌊x⌋ : ℤ) : ℚ) < 1 := by
  have := Int.lt_floor_add_one x
  linarith

/-- On a sorted sample the `q` closure stays above its lower sample point. -/
theorem jsQ_lb {a : List ℚ} (h : a.Sorted (fun x y => x ≤ y)) (p : ℚ)
    (hne : a.length ≠ 0) :
    a.getD (⌊((a.length : ℚ) - 1) * p⌋).toNat 0 ≤ jsQ a p := by
  unfold jsQ
  rw [if_neg hne]
  set pos : ℚ := ((a.length : ℚ) - 1) * p with hpos
  set base : Nat := (⌊pos⌋).toNat with hbase
  by_cases hb : base + 1 < a.length
  · rw [if_pos hb]
    set v := a.getD base 0 + (a.getD (base + 1) 0 - a.getD base 0) *
      (pos - ((⌊pos⌋ : ℤ) : ℚ)) with hv
    by_cases hz : v = 0
    · rw [if_pos hz]
    · rw [if_neg hz]
      have hmono : a.getD base 0 ≤ a.getD (base + 1) 0 :=
        sorted_getD_mono h (Nat.le_succ base) hb
      have hr := fract_nonneg' pos
      nlinarith
  · rw [if_neg hb]

/-- On a sorted sample the `q` closure stays below the next sample point
(clamped to the top index). -/
theorem jsQ_ub {a : List ℚ} (h : a.Sorted (fun x y => x ≤ y)) (p : ℚ)
    (hne : a.length ≠ 0) (hp1 : 0 ≤ p) (hp2 : p ≤ 1) :
    jsQ a p ≤ a.getD (min ((⌊((a.length : ℚ) - 1) * p⌋).toNat + 1) (a.length - 1)) 0 := by
  have hbase_le : (⌊((a.length : ℚ) - 1) * p⌋).toNat ≤ a.length - 1 := by
    have h1 : ((a.length : ℚ) - 1) * p ≤ ((a.length : ℚ) - 1) := by
      have hn1 : (0 : ℚ) ≤ (a.length : ℚ) - 1 := by
        have : (1 : ℚ) ≤ (a.length : ℚ) := by
          exact_mod_cast Nat.one_le_iff_ne_zero.mpr hne
        linarith
      nlinarith
    have h2 : (⌊((a.length : ℚ) - 1) * p⌋ : ℤ) ≤ ((a.length : ℤ) - 1) := by
      have := Int.floor_le_floor h1
      rwa [show ⌊((a.length : ℚ) - 1)⌋ = (a.length : ℤ) - 1 by
        rw [show ((a.length : ℚ) - 1) = (((a.length : ℤ) - 1 : ℤ) : ℚ) by push_cast; ring,
          Int.floor_intCast]] at this
    omega
  unfold jsQ
  rw [if_neg hne]
  set pos : ℚ := ((a.length : ℚ) - 1) * p with hpos
  set base : Nat := (⌊pos⌋).toNat with hbase
  by_cases hb : base + 1 < a.length
  · rw [if_pos hb]
    have hmin : min (base + 1) (a.length - 1) = base + 1 := by omega
    rw [hmin]
    set v := a.getD base 0 + (a.getD (base + 1) 0 - a.getD base 0) *
      (pos - ((⌊pos⌋ : ℤ) : ℚ)) with hv
    have hmono : a.getD base 0 ≤ a.getD (base + 1) 0 := sorted_getD_mono h (Nat.le_succ base) hb
    by_cases hz : v = 0
    · rw [if_pos hz]
      exact hmono
    · rw [if_neg hz]
      have hr := fract_lt_one' pos
      have hr0 := fract_nonneg' pos
      nlinarith
  · rw [if_neg hb]
    have hmin : min (base + 1) (a.length - 1) = a.length - 1 := by omega
    rw [hmin]
    exact sorted_getD_mono h (by omega) (by omega)

theorem floor_quarter (m : ℕ) : (⌊((m : ℚ)) * (1/4)⌋ : ℤ) = (m / 4 : ℕ) := by
  rw [mul_one_div, show ((4:ℚ)) = ((4:ℕ):ℚ) by norm_num, Rat.floor_natCast_div_natCast]
  omega

theorem floor_three_quarter (m : ℕ) : (⌊((m : ℚ)) * (3/4)⌋ : ℤ) = (3 * m / 4 : ℕ) := by
  rw [show ((m : ℚ)) * (3/4) = ((3*m : ℕ) : ℚ) / ((4:ℕ):ℚ) by push_cast; ring,
    Rat.floor_natCast_div_natCast]
  omega

/-- For at least five samples, the first quartile the code computes is at most
the third quartile (despite the `|| a[base]` fallback). -/
theorem jsQ_q1_le_q3 {a : List ℚ} (h : a.Sorted (fun x y => x ≤ y)) (h5 : 5 ≤ a.length) :
    jsQ a (1/4) ≤ jsQ a (3/4) := by
  have hne : a.length ≠ 0 := by omega
  have hm : ((a.length : ℚ) - 1) = ((a.length - 1 : ℕ) : ℚ) := by
    have : (1 : ℕ) ≤ a.length := by omega
    push_cast [this]
    ring
  set m : ℕ := a.length - 1 with hmdef
  have hb1 : (⌊((a.length : ℚ) - 1) * (1/4)⌋).toNat = m / 4 := by
    rw [hm, floor_quarter]; omega
  have hb3 : (⌊((a.length : ℚ) - 1) * (3/4)⌋).toNat = 3 * m / 4 := by
    rw [hm, floor_three_quarter]; omega
  have h1 := jsQ_ub h (1/4) hne (by norm_num) (by norm_num)
  have h3 := jsQ_lb h (3/4) hne
  rw [hb1] at h1
  rw [hb3] at h3
  refine le_trans h1 (le_trans ?_ h3)
  apply sorted_getD_mono h
  · omega
  · omega

theorem quantiles_q1 (arr : List ℚ) : (quantiles arr).q1 = jsQ (sortAsc arr) (1/4) := rfl

theorem quantiles_q3 (arr : List ℚ) : (quantiles arr).q3 = jsQ (sortAsc arr) (3/4) := rfl

theorem sortAsc_sorted (arr : List ℚ) : (sortAsc arr).Sorted (fun x y => x ≤ y) :=
  List.sorted_insertionSort _ _

theorem sortAsc_length (arr : List ℚ) : (sortAsc arr).length = arr.length :=
  List.length_insertionSort _ _

theorem quantiles_q1_le_q3 (arr : List ℚ) (h5 : 5 ≤ arr.length) :
    (quantiles arr).q1 ≤ (quantiles arr).q3 := by
  rw [quantiles_q1, quantiles_q3]
  exact jsQ_q1_le_q3 (sortAsc_sorted arr) (by rw [sortAsc_length]; exact h5)

theorem loOf_le_hiOf (arr : List ℚ) (h5 : 5 ≤ arr.length) : loOf arr ≤ hiOf arr := by
  have := quantiles_q1_le_q3 arr h5
  unfold loOf hiOf
  linarith

theorem getD_map_eq {α β : Type} (f : α → β) (l : List α) (i : Nat) (hi : i < l.length)
    (d : α) (d' : β) : (l.map f).getD i d' = f (l.getD i d) := by
  rw [List.getD_eq_getElem?_getD, List.getD_eq_getElem?_getD, List.getElem?_map,
    List.getElem?_eq_getElem hi]
  rfl

theorem getD_default {α : Type} (l : List α) (i : Nat) (hi : l.length ≤ i) (d : α) :
    l.getD i d = d := by
  rw [List.getD_eq_getElem?_getD, List.getElem?_eq_none hi]
  rfl

theorem winsorize_eq (arr : List ℚ) :
    winsorize arr
      = if arr.length < 5 then arr else arr.map (clip (loOf arr) (hiOf arr)) := rfl

theorem winsorize_getD_bounds (arr : List ℚ) (h5 : 5 ≤ arr.length) (i : Nat)
    (hi : i < arr.length) :
    loOf arr ≤ (winsorize arr).getD i 0 ∧ (winsorize arr).getD i 0 ≤ hiOf arr := by
  have hlh := loOf_le_hiOf arr h5
  rw [winsorize_eq, if_neg (by omega)]
  rw [getD_map_eq _ _ i hi 0 0]
  unfold clip
  by_cases h1 : arr.getD i 0 < loOf arr
  · rw [if_pos h1]
    exact ⟨le_refl _, hlh⟩
  · rw [if_neg h1]
    by_cases h2 : arr.getD i 0 > hiOf arr
    · rw [if_pos h2]
      exact ⟨hlh, le_refl _⟩
    · rw [if_neg h2]
      exact ⟨le_of_not_lt h1, le_of_not_lt h2⟩

theorem winsorize_getD_id (arr : List ℚ) (i : Nat)
    (hcond : arr.length < 5 ∨ (loOf arr ≤ arr.getD i 0 ∧ arr.getD i 0 ≤ hiOf arr)) :
    (winsorize arr).getD i 0 = arr.getD i 0 := by
  rw [winsorize_eq]
  rcases hcond with hlen | hbnd
  · rw [if_pos hlen]
  · by_cases hlen : arr.length < 5
    · rw [if_pos hlen]
    · rw [if_neg hlen]
      by_cases hi : i < arr.length
      · rw [getD_map_eq _ _ i hi 0 0]
        unfold clip
        rw [if_neg (not_lt.mpr hbnd.1), if_neg (not_lt.mpr hbnd.2)]
      · rw [getD_default _ _ (by simp only [List.length_map]; omega), getD_default _ _ (by omega)]

theorem transformColumnValues_numeric (m : SummaryMaps) (col : ColumnSpec)
    (hty : col.type = ColType.numeric) (vs : List Value) :
    transformColumnValues m col vs
      = (winsorize (vs.map
          (fun v => (toNumber v).getD ((mapGet m.medians col.name).getD 0)))).map vnum := by
  simp only [transformColumnValues, hty, List.map_map]
  rfl

theorem textProbe_ne_empty {v : Value} {t : String} (h : textProbe v = some t) : t ≠ "" := by
  unfold textProbe at h
  split at h
  · exact Option.noConfusion h
  · split at h
    · exact Option.noConfusion h
    · next hne2 =>
      intro hc
      injection h with h1
      exact hne2 (h1.trans hc)

/-! ### Claims -/

/-- C1: `quantiles` is claimed to return, for each p in {0.25, 0.5, 0.75}, the
linear (R-7) interpolation value on the sorted sample, and {0,0,0} on empty
input.  The code violates this: on [-1, 1] the interpolated median is 0,
which is falsy, so `|| a[base]` replaces it with a[0] = -1, while the claimed
formula gives 0.  (The empty case does hold.) -/
theorem C1_quantiles_median_bug :
    (quantiles [-1, 1]).q2 = -1 ∧ (quantilesSpecR7 [-1, 1]).q2 = 0
      ∧ quantiles ([] : List ℚ) = ⟨0, 0, 0⟩
      ∧ quantilesSpecR7 ([] : List ℚ) = ⟨0, 0, 0⟩ := by
  refine ⟨?_, ?_, rfl, rfl⟩ <;>
    norm_num [quantiles, quantilesSpecR7, sortAsc, jsQ, r7, List.insertionSort,
      List.orderedInsert, intToNat0]

/-- C4: on a datetime column, a cell whose raw value fails to parse is kept
verbatim (no fill value), and a cell that parses is replaced by the canonical
string. -/
theorem C4_datetime_preserves_raw (rows : List Row) (p : DatasetProfile) (col : ColumnSpec)
    (hnd : (p.columns.map (fun c => c.name)).Nodup) (hmem : col ∈ p.columns)
    (hty : col.type = ColType.datetime) (i : Nat) (hi : i < rows.length) :
    (colValues (cleanData rows p).1 col.name).getD i vnull
      = match normalizeDate ((colValues rows col.name).getD i vnull) with
        | some s => vstr s
        | none => (colValues rows col.name).getD i vnull := by
  rw [cleanData_colValues rows p col hmem hnd]
  simp only [transformColumnValues, hty]
  exact getD_map_eq _ _ i (by rw [colValues_length]; exact hi) vnull vnull

theorem C4_witness :
    (colValues (cleanData (mkRows [vstr "not-a-date", vstr "2023-01-01T00:00:00.000Z"])
        pDate).1 colDate.name).getD 0 vnull = vstr "not-a-date"
      ∧ (colValues (cleanData (mkRows [vstr "not-a-date", vstr "2023-01-01T00:00:00.000Z"])
        pDate).1 colDate.name).getD 1 vnull = vstr "2023-01-01" := by
  constructor
  · exact (C4_datetime_preserves_raw _ pDate colDate (by decide) (by decide) rfl 0
      (by decide)).trans (by decide)
  · exact (C4_datetime_preserves_raw _ pDate colDate (by decide) (by decide) rfl 1
      (by decide)).trans (by decide)

/-- C6: on a non-empty sample `mode` returns a value of maximal occurrence
count, breaking ties toward the value first encountered; on the empty sample
it returns missing. -/
theorem C6_mode_max_first_seen {α : Type} [DecidableEq α] (arr : List α) :
    (mode arr = none ↔ arr = [])
      ∧ ∀ v, mode arr = some v →
          v ∈ arr ∧ (∀ w ∈ arr, arr.count w ≤ arr.count v)
            ∧ ∀ w ∈ arr, arr.count w = arr.count v → arr.indexOf v ≤ arr.indexOf w :=
  ⟨mode_eq_none_iff arr, fun v h => mode_some_spec arr v h⟩

theorem C6_witness :
    (mode ([] : List ℕ) = none)
      ∧ 3 ∈ [3, 1, 3, 1, 2]
      ∧ (∀ w ∈ [3, 1, 3, 1, 2], List.count w [3, 1, 3, 1, 2] ≤ List.count 3 [3, 1, 3, 1, 2])
      ∧ ∀ w ∈ [3, 1, 3, 1, 2], List.count w [3, 1, 3, 1, 2] = List.count 3 [3, 1, 3, 1, 2] →
          List.indexOf 3 [3, 1, 3, 1, 2] ≤ List.indexOf w [3, 1, 3, 1, 2] := by
  refine ⟨(C6_mode_max_first_seen ([] : List ℕ)).1.mpr rfl, ?_⟩
  exact (C6_mode_max_first_seen [3, 1, 3, 1, 2]).2 3 (by decide)

/-- C7 counterexample: the claim promises exactly one report entry per
profiled column; a profile holding one column of an unsupported type produces
an empty report (spec §4.4/§9 pass-through). -/
theorem C7_counterexample :
    (cleanData (mkRows [vnull]) pOther).2 = [] ∧ pOther.columns.length = 1 := by
  exact ⟨rfl, rfl⟩

/-- C7 amended: the report has exactly one entry per profiled column of a
supported type (numeric, boolean, datetime, categorical, text), in profile
order, each entry headed by its column's name; unsupported-type columns get
no entry. -/
theorem C7_amended (rows : List Row) (p : DatasetProfile) :
    (cleanData rows p).2
      = (p.columns.filter (fun c => c.type ≠ ColType.other)).map
          (reportLine (summarize rows p.columns))
      ∧ ∀ col ∈ p.columns, col.type ≠ ColType.other →
          ∃ rest, reportLine (summarize rows p.columns) col = col.name ++ rest := by
  refine ⟨cleanData_report rows p, ?_⟩
  intro col _ hother
  cases hty : col.type
  case other => exact absurd hty hother
  case numeric =>
    exact ⟨": converted to number, imputed median "
        ++ (toFixed2 ((mapGet (summarize rows p.columns).medians col.name).getD 0)
          ++ ", winsorized outliers"),
      by simp only [reportLine, hty, String.append_assoc]⟩
  case boolean =>
    exact ⟨": normalized booleans and filled missing with mode",
      by simp only [reportLine, hty]⟩
  case datetime =>
    exact ⟨": normalized dates to ISO (YYYY-MM-DD or ISO 8601)",
      by simp only [reportLine, hty]⟩
  case categorical =>
    exact ⟨": trimmed text and filled missing with '"
        ++ (jsToString ((mapGet (summarize rows p.columns).modes col.name).getD (vstr "Unknown"))
          ++ "'"),
      by simp only [reportLine, hty, String.append_assoc]⟩
  case text =>
    exact ⟨": trimmed text and filled missing with '"
        ++ (jsToString ((mapGet (summarize rows p.columns).modes col.name).getD (vstr "Unknown"))
          ++ "'"),
      by simp only [reportLine, hty, String.append_assoc]⟩

theorem C7_witness :
    (cleanData (mkRows [vstr "x"]) pText).2 = ["c: trimmed text and filled missing with 'x'"]
      ∧ ∃ rest, reportLine (summarize (mkRows [vstr "x"]) pText.columns) colText
          = colText.name ++ rest := by
  constructor
  · exact (C7_amended (mkRows [vstr "x"]) pText).1.trans (by decide)
  · exact (C7_amended (mkRows [vstr "x"]) pText).2 colText (by decide) (by decide)

/-- C9: columns not named in the profile pass through unchanged in every row,
the row count is preserved, and every report entry is the entry generated for
some profiled column.  (`cleanData` is pure in this model: the input rows are
values and the output rows are fresh copies, so the no-mutation part of the
claim is inherent.) -/
theorem C9_frame (rows : List Row) (p : DatasetProfile) (k : String)
    (hk : k ∉ p.columns.map (fun c => c.name)) :
    colValues (cleanData rows p).1 k = colValues rows k
      ∧ (cleanData rows p).1.length = rows.length
      ∧ ∀ s ∈ (cleanData rows p).2, ∃ col ∈ p.columns,
          s = reportLine (summarize rows p.columns) col := by
  refine ⟨cleanData_colValues_ne rows p k hk, cleanData_length rows p, ?_⟩
  intro s hs
  rw [cleanData_report rows p] at hs
  obtain ⟨col, hcol, hline⟩ := List.mem_map.mp hs
  exact ⟨col, List.mem_of_mem_filter hcol, hline.symm⟩

theorem C9_witness :
    colValues (cleanData [rowOf2 (vstr " a") (vnum 3)] pText).1 "u" = [vnum 3]
      ∧ (cleanData [rowOf2 (vstr " a") (vnum 3)] pText).1.length = 1 := by
  have h := C9_frame [rowOf2 (vstr " a") (vnum 3)] pText "u" (by decide)
  exact ⟨h.1.trans (by decide), h.2.1.trans (by decide)⟩

/-- C10: a categorical/text cell holding a non-empty all-whitespace string is
treated as present: the cleaned cell is the empty string (its trimmed form),
not the fill value, while the summarize pass excludes such cells from the
mode sample. -/
theorem C10_whitespace_trims_to_empty (rows : List Row) (p : DatasetProfile)
    (col : ColumnSpec) (hnd : (p.columns.map (fun c => c.name)).Nodup)
    (hmem : col ∈ p.columns)
    (hty : col.type = ColType.categorical ∨ col.type = ColType.text)
    (i : Nat) (hi : i < rows.length) (s : String)
    (hcell : (colValues rows col.name).getD i vnull = vstr s)
    (hne : s ≠ "") (htrim : jsTrim s = "") :
    (colValues (cleanData rows p).1 col.name).getD i vnull = vstr ""
      ∧ "" ∉ textsOf rows col.name
      ∧ ∀ fill, mapGet (summarize rows p.columns).modes col.name = some fill →
          fill ≠ vstr "" := by
  refine ⟨?_, ?_, ?_⟩
  · rw [cleanData_colValues rows p col hmem hnd]
    rcases hty with hty | hty <;>
    · simp only [transformColumnValues, hty]
      rw [getD_map_eq _ _ i (by rw [colValues_length]; exact hi) vnull vnull, hcell]
      have hcond : ¬(vstr s = vnull ∨ vstr s = vstr "") := by
        rintro (h | h)
        · exact Value.noConfusion h
        · exact hne (by injection h)
      rw [if_neg hcond]
      show vstr (jsTrim (jsToString (vstr s))) = vstr ""
      rw [show jsToString (vstr s) = s from rfl, htrim]
  · intro hmem0
    obtain ⟨rr, _, hpr⟩ := List.mem_filterMap.mp hmem0
    exact textProbe_ne_empty hpr rfl
  · intro fill hfill
    rw [summarize_modes_lookup rows p.columns col hmem hnd] at hfill
    rcases hty with hty | hty <;>
    · rw [hty] at hfill
      replace hfill : (mode (textsOf rows col.name)).map vstr = some fill := hfill
      obtain ⟨t, ht, hfe⟩ := Option.map_eq_some'.mp hfill
      have htmem := mode_mem ht
      intro hc
      rw [← hfe] at hc
      have hte : t = "" := by injection hc
      obtain ⟨rr, _, hpr⟩ := List.mem_filterMap.mp htmem
      exact textProbe_ne_empty hpr hte

theorem C10_witness :
    (colValues (cleanData (mkRows [vstr "  ", vstr "x"]) pText).1 colText.name).getD 0 vnull
      = vstr ""
      ∧ "" ∉ textsOf (mkRows [vstr "  ", vstr "x"]) colText.name := by
  have h := C10_whitespace_trims_to_empty (mkRows [vstr "  ", vstr "x"]) pText colText
    (by decide) (by decide) (Or.inr rfl) 0 (by decide) "  " (by decide) (by decide) (by decide)
  exact ⟨h.1, h.2.1⟩

/-- C2 counterexample: the claim bounds cleaned values by quantiles of the
non-missing coerced values (before imputation).  On a column with valid
samples [-10,-10,-5,-3,1,9] (six of them, ≥ 5) plus one missing cell, the
code clips with bounds computed after median imputation (and the `||` quirk
deflates the pre-imputation q3 to -3), producing 35/4, which exceeds the
claimed upper bound q3 + 1.5·(q3 - q1) = 45/8. -/
theorem C2_counterexample :
    numsOf (mkRows [vnum (-10), vnum (-10), vnum (-5), vnum (-3), vnum 1, vnum 9, vnull]) "c"
        = [-10, -10, -5, -3, 1, 9]
      ∧ 5 ≤ ([-10, -10, -5, -3, 1, 9] : List ℚ).length
      ∧ (colValues (cleanData (mkRows [vnum (-10), vnum (-10), vnum (-5), vnum (-3), vnum 1,
          vnum 9, vnull]) pNum).1 "c").getD 5 vnull = vnum (35/4)
      ∧ (quantiles [-10, -10, -5, -3, 1, 9]).q3
          + 3/2 * ((quantiles [-10, -10, -5, -3, 1, 9]).q3
            - (quantiles [-10, -10, -5, -3, 1, 9]).q1) < 35/4 := by
  refine ⟨?_, by norm_num, ?_, ?_⟩
  · decide
  · norm_num [cleanData, summarize, summarizeStep, List.foldl, numsOf, List.filterMap, rowOf,
      mkRows, toNumber, quantiles, sortAsc, jsQ, List.insertionSort, List.orderedInsert,
      mapSet, mapGet, List.find?, runCols, transformCol, transformColumnValues, writeBack,
      List.zipWith, setCol, winsorize, colValues, pNum, colNum,
      intToNat0, intToNat1, intToNat2, intToNat3, intToNat4, intToNat5]
  · norm_num [quantiles, sortAsc, jsQ, List.insertionSort, List.orderedInsert,
      intToNat0, intToNat1, intToNat2, intToNat3, intToNat4]

/-- C2 amended: for every numeric column of a uniquely-named profile, whenever
the table has at least 5 rows, every cleaned value lies within
[q1 − 1.5·IQR, q3 + 1.5·IQR] where q1, q3 are computed by `quantiles` over
the column's coerced values after median imputation (the "converted"
column). -/
theorem C2_amended (rows : List Row) (p : DatasetProfile) (col : ColumnSpec)
    (hnd : (p.columns.map (fun c => c.name)).Nodup) (hmem : col ∈ p.columns)
    (hty : col.type = ColType.numeric) (h5 : 5 ≤ rows.length) (i : Nat)
    (hi : i < rows.length) :
    ∃ q : ℚ, (colValues (cleanData rows p).1 col.name).getD i vnull = vnum q
      ∧ loOf (convertedColumn rows p col.name) ≤ q
      ∧ q ≤ hiOf (convertedColumn rows p col.name) := by
  rw [cleanData_colValues rows p col hmem hnd, transformColumnValues_numeric _ col hty]
  have hc : (colValues rows col.name).map
      (fun v => (toNumber v).getD ((mapGet (summarize rows p.columns).medians col.name).getD 0))
      = convertedColumn rows p col.name := rfl
  rw [hc]
  have hlen : (convertedColumn rows p col.name).length = rows.length := by
    unfold convertedColumn
    rw [List.length_map, colValues_length]
  refine ⟨(winsorize (convertedColumn rows p col.name)).getD i 0, ?_, ?_⟩
  · exact getD_map_eq vnum _ i (by rw [winsorize_length, hlen]; exact hi) 0 vnull
  · exact winsorize_getD_bounds _ (by omega) i (by omega)

theorem C2_witness :
    ∃ q : ℚ, (colValues (cleanData (mkRows [vnum 1, vnum 2, vnum 3, vnum 4, vnum 100])
        pNum).1 colNum.name).getD 4 vnull = vnum q
      ∧ loOf (convertedColumn (mkRows [vnum 1, vnum 2, vnum 3, vnum 4, vnum 100]) pNum
          colNum.name) ≤ q
      ∧ q ≤ hiOf (convertedColumn (mkRows [vnum 1, vnum 2, vnum 3, vnum 4, vnum 100]) pNum
          colNum.name) :=
  C2_amended (mkRows [vnum 1, vnum 2, vnum 3, vnum 4, vnum 100]) pNum colNum
    (by decide) (by decide) rfl (by decide) 4 (by decide)

/-- C5: re-running `cleanData` on its own output with the same profile leaves
unchanged: a numeric cell within the re-run's clipping range (or any numeric
cell when the table has fewer than 5 rows), a date cell already in canonical
form (normalizing it returns the very same string), and a non-empty
already-trimmed text cell. -/
theorem C5_idempotent (rows : List Row) (p : DatasetProfile) (col : ColumnSpec)
    (hnd : (p.columns.map (fun c => c.name)).Nodup) (hmem : col ∈ p.columns)
    (i : Nat) (hi : i < rows.length) :
    (∀ q : ℚ, col.type = ColType.numeric →
        (colValues (cleanData rows p).1 col.name).getD i vnull = vnum q →
        (rows.length < 5
          ∨ (loOf (convertedColumn (cleanData rows p).1 p col.name) ≤ q
             ∧ q ≤ hiOf (convertedColumn (cleanData rows p).1 p col.name))) →
        (colValues (cleanData (cleanData rows p).1 p).1 col.name).getD i vnull = vnum q)
      ∧ (∀ s : String, col.type = ColType.datetime →
          (colValues (cleanData rows p).1 col.name).getD i vnull = vstr s →
          normalizeDate (vstr s) = some s →
          (colValues (cleanData (cleanData rows p).1 p).1 col.name).getD i vnull = vstr s)
      ∧ (∀ s : String, (col.type = ColType.categorical ∨ col.type = ColType.text) →
          (colValues (cleanData rows p).1 col.name).getD i vnull = vstr s →
          s ≠ "" → jsTrim s = s →
          (colValues (cleanData (cleanData rows p).1 p).1 col.name).getD i vnull = vstr s) := by
  have hlen1 : (cleanData rows p).1.length = rows.length := cleanData_length rows p
  have hi1 : i < (cleanData rows p).1.length := by omega
  refine ⟨?_, ?_, ?_⟩
  · intro q hty hcell hcond
    rw [cleanData_colValues (cleanData rows p).1 p col hmem hnd,
      transformColumnValues_numeric _ col hty]
    have hc : (colValues (cleanData rows p).1 col.name).map
        (fun v => (toNumber v).getD
          ((mapGet (summarize (cleanData rows p).1 p.columns).medians col.name).getD 0))
        = convertedColumn (cleanData rows p).1 p col.name := rfl
    rw [hc]
    have hlen : (convertedColumn (cleanData rows p).1 p col.name).length = rows.length := by
      unfold convertedColumn
      rw [List.length_map, colValues_length, hlen1]
    have hconvi : (convertedColumn (cleanData rows p).1 p col.name).getD i 0 = q := by
      unfold convertedColumn
      rw [getD_map_eq _ _ i (by rw [colValues_length]; exact hi1) vnull 0, hcell]
      rfl
    rw [getD_map_eq vnum _ i (by rw [winsorize_length, hlen]; exact hi) 0 vnull,
      winsorize_getD_id _ i ?_, hconvi]
    rcases hcond with hlt | hbnd
    · exact Or.inl (by omega)
    · exact Or.inr (by rw [hconvi]; exact hbnd)
  · intro s hty hcell hfix
    rw [cleanData_colValues (cleanData rows p).1 p col hmem hnd]
    simp only [transformColumnValues, hty]
    rw [getD_map_eq _ _ i (by rw [colValues_length]; exact hi1) vnull vnull, hcell]
    show (match normalizeDate (vstr s) with | some s => vstr s | none => vstr s) = vstr s
    rw [hfix]
  · intro s hty hcell hne htrim
    rw [cleanData_colValues (cleanData rows p).1 p col hmem hnd]
    rcases hty with hty | hty <;>
    · simp only [transformColumnValues, hty]
      rw [getD_map_eq _ _ i (by rw [colValues_length]; exact hi1) vnull vnull, hcell]
      have hcond : ¬(vstr s = vnull ∨ vstr s = vstr "") := by
        rintro (h | h)
        · exact Value.noConfusion h
        · exact hne (by injection h)
      rw [if_neg hcond]
      show vstr (jsTrim (jsToString (vstr s))) = vstr s
      rw [show jsToString (vstr s) = s from rfl, htrim]

theorem C5_witness :
    (colValues (cleanData (cleanData (mkRows [vstr " a", vstr " a", vstr "b"]) pText).1
        pText).1 colText.name).getD 2 vnull = vstr "b"
      ∧ (colValues (cleanData (cleanData (mkRows [vstr "2023-01-01", vnull]) pDate).1
        pDate).1 colDate.name).getD 0 vnull = vstr "2023-01-01"
      ∧ (colValues (cleanData (cleanData (mkRows [vnum 1, vnum 2, vnum 3]) pNum).1
        pNum).1 colNum.name).getD 0 vnull = vnum 1 := by
  refine ⟨?_, ?_, ?_⟩
  · exact (C5_idempotent (mkRows [vstr " a", vstr " a", vstr "b"]) pText colText
      (by decide) (by decide) 2 (by decide)).2.2 "b" (Or.inr rfl) (by decide)
      (by decide) (by decide)
  · exact (C5_idempotent (mkRows [vstr "2023-01-01", vnull]) pDate colDate
      (by decide) (by decide) 0 (by decide)).2.1 "2023-01-01" rfl (by decide) (by decide)
  · exact (C5_idempotent (mkRows [vnum 1, vnum 2, vnum 3]) pNum colNum
      (by decide) (by decide) 0 (by decide)).1 1 rfl
      (by norm_num [cleanData, summarize, summarizeStep, List.foldl, numsOf, List.filterMap,
        rowOf, mkRows, toNumber, quantiles, sortAsc, jsQ, List.insertionSort,
        List.orderedInsert, mapSet, mapGet, List.find?, runCols, transformCol,
        transformColumnValues, writeBack, List.zipWith, setCol, winsorize, colValues, pNum,
        colNum, intToNat0, intToNat1, intToNat2])
      (Or.inl (by norm_num [mkRows]))

/-! ### Date rendering: slice structure of the ISO string -/

theorem msOfDay_lt (ms : Int) : msOfDay ms < 86400000 := by
  unfold msOfDay
  have h1 : Int.emod ms 86400000 < 86400000 := Int.emod_lt_of_pos ms (by norm_num)
  omega

theorem dig_eq_zero_iff : ∀ c : Nat, c < 10 → ((dig c = '0') ↔ c = 0) := by decide

theorem pad2_eq_00_iff : ∀ n : Nat, n < 100 → ((pad2 n = ['0', '0']) ↔ n = 0) := by decide

theorem isoTimePart_length (t : Nat) : (isoTimePart t).length = 12 := by
  simp [isoTimePart, pad2, pad3]

theorem isoDatePart_length (y : Int) (m d : Nat) :
    (isoDatePart y m d).length = if 0 ≤ y ∧ y ≤ 9999 then 10 else 13 := by
  unfold isoDatePart
  split
  · next h => simp [pad4, pad2, if_pos h]
  · next h => simp [pad6, pad2, if_neg h]

theorem asString_eq_iff (l : List Char) (s : String) : l.asString = s ↔ l = s.data := by
  constructor
  · intro h
    exact congrArg String.data h
  · intro h
    cases s with
    | mk m => exact congrArg List.asString h

theorem take8_isoTimePart (t : Nat) :
    (isoTimePart t).take 8
      = pad2 (t / 3600000) ++ ':' :: (pad2 (t / 60000 % 60) ++ ':' :: pad2 (t / 1000 % 60)) := by
  simp [isoTimePart, pad2, pad3]

theorem hms_slice_iff (t : Nat) (ht : t < 86400000) :
    ((pad2 (t / 3600000) ++ ':' :: (pad2 (t / 60000 % 60) ++ ':' :: pad2 (t / 1000 % 60)))
        = "00:00:00".data)
      ↔ t < 1000 := by
  have h1 : pad2 (t / 3600000) = [dig (t / 3600000 / 10 % 10), dig (t / 3600000 % 10)] := rfl
  have hh : t / 3600000 < 100 := by omega
  have hm : t / 60000 % 60 < 100 := by omega
  have hs : t / 1000 % 60 < 100 := by omega
  constructor
  · intro h
    simp only [pad2, List.cons_append, List.nil_append, List.cons.injEq] at h
    obtain ⟨e1, e2, _, e3, e4, _, e5, e6, _⟩ := h
    have z1 : t / 3600000 / 10 % 10 = 0 := (dig_eq_zero_iff _ (by omega)).mp e1
    have z2 : t / 3600000 % 10 = 0 := (dig_eq_zero_iff _ (by omega)).mp e2
    have z3 : t / 60000 % 60 / 10 % 10 = 0 := (dig_eq_zero_iff _ (by omega)).mp e3
    have z4 : t / 60000 % 60 % 10 = 0 := (dig_eq_zero_iff _ (by omega)).mp e4
    have z5 : t / 1000 % 60 / 10 % 10 = 0 := (dig_eq_zero_iff _ (by omega)).mp e5
    have z6 : t / 1000 % 60 % 10 = 0 := (dig_eq_zero_iff _ (by omega)).mp e6
    omega
  · intro h
    have e1 : t / 3600000 = 0 := by omega
    have e2 : t / 60000 % 60 = 0 := by omega
    have e3 : t / 1000 % 60 = 0 := by omega
    rw [e1, e2, e3]
    decide

theorem isoChars_decomp (ms : Int) :
    isoChars ms
      = isoDatePart (civilFromDays (Int.ediv ms 86400000)).1
          (civilFromDays (Int.ediv ms 86400000)).2.1 (civilFromDays (Int.ediv ms 86400000)).2.2
        ++ 'T' :: (isoTimePart (msOfDay ms) ++ ['Z']) := rfl

theorem slice_11_19_iff (ms : Int) :
    (jsSlice (renderIso ms) 11 19 = "00:00:00")
      ↔ (msOfDay ms < 1000 ∧ 0 ≤ isoYear ms ∧ isoYear ms ≤ 9999) := by
  have ht := msOfDay_lt ms
  have hslice : jsSlice (renderIso ms) 11 19
      = (((isoChars ms).drop 11).take 8).asString := rfl
  have hyeq : isoYear ms = (civilFromDays (Int.ediv ms 86400000)).1 := rfl
  by_cases hy : 0 ≤ (civilFromDays (Int.ediv ms 86400000)).1
      ∧ (civilFromDays (Int.ediv ms 86400000)).1 ≤ 9999
  · have hlen : (isoDatePart (civilFromDays (Int.ediv ms 86400000)).1
        (civilFromDays (Int.ediv ms 86400000)).2.1
        (civilFromDays (Int.ediv ms 86400000)).2.2).length = 10 := by
      rw [isoDatePart_length, if_pos hy]
    have hdrop : (isoChars ms).drop 11 = isoTimePart (msOfDay ms) ++ ['Z'] := by
      rw [isoChars_decomp, show 11 = (isoDatePart (civilFromDays (Int.ediv ms 86400000)).1
        (civilFromDays (Int.ediv ms 86400000)).2.1
        (civilFromDays (Int.ediv ms 86400000)).2.2).length + 1 by omega, List.drop_append]
      rfl
    have htake : ((isoChars ms).drop 11).take 8
        = pad2 (msOfDay ms / 3600000)
          ++ ':' :: (pad2 (msOfDay ms / 60000 % 60) ++ ':' :: pad2 (msOfDay ms / 1000 % 60)) := by
      rw [hdrop, List.take_append_of_le_length (by rw [isoTimePart_length]; omega),
        take8_isoTimePart]
    rw [hslice, htake, asString_eq_iff]
    constructor
    · intro h
      exact ⟨(hms_slice_iff (msOfDay ms) ht).mp h, by rw [hyeq]; exact hy.1,
        by rw [hyeq]; exact hy.2⟩
    · intro h
      exact (hms_slice_iff (msOfDay ms) ht).mpr h.1
  · have hlen : (isoDatePart (civilFromDays (Int.ediv ms 86400000)).1
        (civilFromDays (Int.ediv ms 86400000)).2.1
        (civilFromDays (Int.ediv ms 86400000)).2.2).length = 13 := by
      rw [isoDatePart_length, if_neg hy]
    have hdrop : (isoChars ms).drop 11
        = ((isoDatePart (civilFromDays (Int.ediv ms 86400000)).1
            (civilFromDays (Int.ediv ms 86400000)).2.1
            (civilFromDays (Int.ediv ms 86400000)).2.2).drop 11)
          ++ 'T' :: (isoTimePart (msOfDay ms) ++ ['Z']) := by
      rw [isoChars_decomp, List.drop_append_of_le_length (by omega)]
    have hdp : (isoDatePart (civilFromDays (Int.ediv ms 86400000)).1
        (civilFromDays (Int.ediv ms 86400000)).2.1
        (civilFromDays (Int.ediv ms 86400000)).2.2).drop 11
        = [dig ((civilFromDays (Int.ediv ms 86400000)).2.2 / 10 % 10),
           dig ((civilFromDays (Int.ediv ms 86400000)).2.2 % 10)] := by
      unfold isoDatePart
      rw [if_neg hy]
      simp [pad6, pad2]
    rw [hslice, hdrop, hdp]
    constructor
    · intro h
      rw [asString_eq_iff] at h
      simp [List.take, List.cons.injEq] at h
    · intro h
      rw [hyeq] at h
      exact absurd ⟨h.2.1, h.2.2⟩ hy

theorem normalizeDate_some_eq (v : Value) (ms : Int) (h1 : v ≠ vnull) (h2 : v ≠ vstr "")
    (h : dateValueMs v = some ms) :
    normalizeDate v
      = some (if jsSlice (renderIso ms) 11 19 = "00:00:00"
          then jsSlice (renderIso ms) 0 10 else renderIso ms) := by
  unfold normalizeDate
  rw [if_neg (by
    rintro (hc | hc)
    · exact h1 hc
    · exact h2 hc), h]

theorem renderIso_length (ms : Int) : 24 ≤ (renderIso ms).length := by
  show 24 ≤ (isoChars ms).length
  rw [isoChars_decomp]
  simp only [List.length_append, List.length_cons, isoTimePart_length, isoDatePart_length,
    List.length_singleton]
  split <;> omega

theorem dateOnlyOf_length (ms : Int) : (dateOnlyOf ms).length = 10 := by
  show (((isoChars ms).drop 0).take 10).length = 10
  rw [List.drop_zero, List.length_take]
  have := renderIso_length ms
  have h2 : (renderIso ms).length = (isoChars ms).length := rfl
  omega

theorem normalizeDate_ne_empty {v : Value} {s : String} (h : normalizeDate v = some s) :
    s ≠ "" := by
  unfold normalizeDate at h
  split at h
  · exact Option.noConfusion h
  · cases hd : dateValueMs v with
    | none => rw [hd] at h; exact Option.noConfusion h
    | some ms =>
      rw [hd] at h
      have hs := Option.some.inj h
      intro hc
      rw [hc] at hs
      by_cases hsl : jsSlice (renderIso ms) 11 19 = "00:00:00"
      · rw [if_pos hsl] at hs
        have hl := congrArg String.length hs
        have h10 : (jsSlice (renderIso ms) 0 10).length = 10 := dateOnlyOf_length ms
        rw [h10] at hl
        exact absurd hl (by decide)
      · rw [if_neg hsl] at hs
        have hl := congrArg String.length hs
        have h24 := renderIso_length ms
        rw [show ("" : String).length = 0 from rfl] at hl
        omega

/-- C8 counterexample: the claim says the result is the date-only string iff
the parsed time-of-day is exactly midnight.  A value 500 ms after midnight is
not exactly midnight, yet the `hh:mm:ss`-only check yields the date-only
form; and the exact midnight opening year 10000 (expanded-year ISO format)
yields the full timestamp form. -/
theorem C8_counterexample :
    normalizeDate (vnum 500) = some "1970-01-01"
      ∧ ("1970-01-01" : String).length = 10
      ∧ msOfDay 500 ≠ 0
      ∧ normalizeDate (vdate 253402300800000) = some "+010000-01-01T00:00:00.000Z"
      ∧ msOfDay 253402300800000 = 0 := by
  refine ⟨by decide, by decide, by decide, by decide, by decide⟩

/-- C8 amended: for a value that parses to time value `ms`, the result is the
date-only string `iso.slice(0, 10)` iff the time-of-day has zero hours,
minutes and seconds (milliseconds are not inspected) and the year is within
0..9999 (4-digit format); otherwise the result is the full ISO timestamp. -/
theorem C8_amended (v : Value) (ms : Int) (h1 : v ≠ vnull) (h2 : v ≠ vstr "")
    (h : dateValueMs v = some ms) :
    (normalizeDate v = some (dateOnlyOf ms)
        ↔ (msOfDay ms < 1000 ∧ 0 ≤ isoYear ms ∧ isoYear ms ≤ 9999))
      ∧ (normalizeDate v = some (dateOnlyOf ms) ∨ normalizeDate v = some (renderIso ms)) := by
  have heq := normalizeDate_some_eq v ms h1 h2 h
  by_cases hc : jsSlice (renderIso ms) 11 19 = "00:00:00"
  · rw [heq, if_pos hc]
    have hdo : jsSlice (renderIso ms) 0 10 = dateOnlyOf ms := rfl
    rw [hdo]
    exact ⟨⟨fun _ => (slice_11_19_iff ms).mp hc, fun _ => rfl⟩, Or.inl rfl⟩
  · rw [heq, if_neg hc]
    constructor
    · constructor
      · intro hEq
        exfalso
        have hinj := Option.some.inj hEq
        have hlen := congrArg String.length hinj
        rw [dateOnlyOf_length] at hlen
        have h24 := renderIso_length ms
        omega
      · intro hcond
        exact absurd ((slice_11_19_iff ms).mpr hcond) hc
    · exact Or.inr rfl

theorem C8_witness :
    normalizeDate (vdate 86400000) = some (dateOnlyOf 86400000)
      ∧ dateOnlyOf 86400000 = "1970-01-02" := by
  constructor
  · exact (C8_amended (vdate 86400000) 86400000 (by decide) (by decide) (by decide)).1.mpr
      (by decide)
  · decide

/-- C3 counterexample: the claim allows no null/empty cleaned cell outside
datetime parse failures, but a text cell holding the one-space string is
cleaned to the empty string. -/
theorem C3_counterexample :
    (colValues (cleanData (mkRows [vstr " ", vstr "x"]) pText).1 "c").getD 0 vnull = vstr ""
      ∧ colText.type = ColType.text := by
  exact ⟨by decide, rfl⟩

/-- C3 amended: for every profiled column of a uniquely-named profile, no
cleaned cell is null or the empty string, except datetime cells whose raw
value failed to parse (kept verbatim) and categorical/text cells whose raw
value is present but whose text form trims to the empty string. -/
theorem C3_amended (rows : List Row) (p : DatasetProfile) (col : ColumnSpec)
    (hnd : (p.columns.map (fun c => c.name)).Nodup) (hmem : col ∈ p.columns)
    (i : Nat) (hi : i < rows.length) :
    (col.type = ColType.numeric →
        ∃ q, (colValues (cleanData rows p).1 col.name).getD i vnull = vnum q)
      ∧ (col.type = ColType.boolean →
          ∃ b, (colValues (cleanData rows p).1 col.name).getD i vnull = vbool b)
      ∧ (col.type = ColType.datetime →
          ∀ s, normalizeDate ((colValues rows col.name).getD i vnull) = some s →
            (colValues (cleanData rows p).1 col.name).getD i vnull = vstr s ∧ s ≠ "")
      ∧ ((col.type = ColType.categorical ∨ col.type = ColType.text) →
          (colValues (cleanData rows p).1 col.name).getD i vnull ≠ vnull
            ∧ ((colValues (cleanData rows p).1 col.name).getD i vnull = vstr "" →
                (colValues rows col.name).getD i vnull ≠ vnull
                  ∧ (colValues rows col.name).getD i vnull ≠ vstr ""
                  ∧ jsTrim (jsToString ((colValues rows col.name).getD i vnull)) = "")) := by
  have hiv : i < (colValues rows col.name).length := by rw [colValues_length]; exact hi
  refine ⟨?_, ?_, ?_, ?_⟩
  · intro hty
    rw [cleanData_colValues rows p col hmem hnd, transformColumnValues_numeric _ col hty]
    exact ⟨_, getD_map_eq vnum _ i (by rw [winsorize_length, List.length_map]; exact hiv)
      0 vnull⟩
  · intro hty
    rw [cleanData_colValues rows p col hmem hnd]
    simp only [transformColumnValues, hty]
    rw [getD_map_eq _ _ i hiv vnull vnull]
    cases hnb : normalizeBoolean ((colValues rows col.name).getD i vnull) with
    | some b => exact ⟨b, rfl⟩
    | none =>
      show ∃ b, (mapGet (summarize rows p.columns).modes col.name).getD (vbool false) = vbool b
      rw [summarize_modes_lookup rows p.columns col hmem hnd]
      cases hmo : mode (boolsOf rows col.name) with
      | some b =>
        refine ⟨b, ?_⟩
        rw [hty]
        rfl
      | none =>
        refine ⟨false, ?_⟩
        rw [hty]
        rfl
  · intro hty s hsome
    rw [cleanData_colValues rows p col hmem hnd]
    simp only [transformColumnValues, hty]
    rw [getD_map_eq _ _ i hiv vnull vnull, hsome]
    exact ⟨rfl, normalizeDate_ne_empty hsome⟩
  · intro hty
    have hfill : ∀ t, mapGet (summarize rows p.columns).modes col.name = some t →
        ∃ u, t = vstr u ∧ u ≠ "" := by
      intro t hfe
      rw [summarize_modes_lookup rows p.columns col hmem hnd] at hfe
      rcases hty with hty | hty <;>
      · rw [hty] at hfe
        replace hfe : (mode (textsOf rows col.name)).map vstr = some t := hfe
        obtain ⟨u, hu, hue⟩ := Option.map_eq_some'.mp hfe
        obtain ⟨rr, _, hpr⟩ := List.mem_filterMap.mp (mode_mem hu)
        exact ⟨u, hue.symm, textProbe_ne_empty hpr⟩
    rcases hty with hty | hty <;>
    · rw [cleanData_colValues rows p col hmem hnd]
      simp only [transformColumnValues, hty]
      rw [getD_map_eq _ _ i hiv vnull vnull]
      by_cases hcond : (colValues rows col.name).getD i vnull = vnull
          ∨ (colValues rows col.name).getD i vnull = vstr ""
      · rw [if_pos hcond]
        cases hmo : mapGet (summarize rows p.columns).modes col.name with
        | some t =>
          obtain ⟨u, hu, hue⟩ := hfill t hmo
          subst hu
          constructor
          · exact fun hc => Value.noConfusion hc
          · intro hc
            exact absurd (show u = "" by injection hc) hue
        | none =>
          constructor
          · exact fun hc => Value.noConfusion hc
          · intro hc
            exact absurd (show "Unknown" = "" by injection hc) (by decide)
      · rw [if_neg hcond]
        push_neg at hcond
        refine ⟨fun hc => Value.noConfusion hc, fun hc => ⟨hcond.1, hcond.2, ?_⟩⟩
        injection hc

theorem C3_witness :
    (colValues (cleanData (mkRows [vnull]) pText).1 colText.name).getD 0 vnull ≠ vnull
      ∧ ∃ q, (colValues (cleanData (mkRows [vnum 1]) pNum).1 colNum.name).getD 0 vnull
          = vnum q := by
  constructor
  · exact ((C3_amended (mkRows [vnull]) pText colText (by decide) (by decide) 0
      (by decide)).2.2.2 (Or.inr rfl)).1
  · exact (C3_amended (mkRows [vnum 1]) pNum colNum (by decide) (by decide) 0
      (by decide)).1 rfl
